import Mathlib

/-!
Verification development for the eo-datasets core model module
(`eodatasets2/model.py`): a shallow embedding of `resolve_absolute_offset`
and `valid_region`, together with theorems about grid grouping and naming,
validity-mask computation and accumulation, the geometry pipeline, error
behaviour, and path resolution.

Modelling conventions:
* Raster files are mocked by a total map `fs : String → Raster`; opening a
  path always succeeds (I/O failures are out of scope of the claims).
* Machine floats (affine transform coefficients) are modelled as `Rat`.
  The Python code compares them with exact equality (attrs-generated
  structural equality on `GridDoc`), which `Rat` equality mirrors.
* Numpy 2-d arrays are modelled as `List (List t)`; `shape` is the pair
  (number of rows, length of the first row), which coincides with the numpy
  shape for the rectangular arrays rasterio produces.
* Python `ValueError` is rendered as `VRError.InputError` and
  `NotImplementedError` as `VRError.UnsupportedFormatError`, following the
  error taxonomy the specification uses for the same raise sites.
* The shapely geometry operations are kept symbolic: `valid_region` returns
  a `Geom` term recording each operation and its numeric parameters in the
  order the code applies them.  Only parameters that the code passes are
  recorded; shapely constant values (join and cap styles) are transcribed
  from the shapely/GEOS documentation.
* Paths are plain strings assumed absolute, so `Path.absolute()` is the
  identity; offsets are relative (they do not start with a slash).
-/

/-! ## Path resolution (`resolve_absolute_offset`, model.py lines 279-321) -/

/-- Python `str.startswith`, implemented over the character list (so that
the kernel can evaluate it). -/
def strStartsWith (s p : String) : Bool :=
  List.isPrefixOf p.data s.data

/-- Python `str.endswith`, implemented over the character list. -/
def strEndsWith (s p : String) : Bool :=
  List.isSuffixOf p.data s.data

/-- Python `str.split` by a single character, over the character list. -/
def splitChar (c : Char) : List Char → List (List Char)
  | [] => [[]]
  | x :: xs =>
    match splitChar c xs with
    | [] => [[]]
    | h :: t => if x = c then [] :: h :: t else (x :: h) :: t

/-- Last path component, as `pathlib.PurePath.name` for a path without a
trailing slash. -/
def pathName (p : String) : String :=
  String.mk ((splitChar '/' p.data).getLastD [])

/-- Embedding of `pathlib.PurePath.suffixes`: the dotted extensions of the
final component.  A leading run of dots is not a suffix separator, and a
name ending in a dot has no suffixes. -/
def pySuffixes (p : String) : List String :=
  let name := pathName p
  if strEndsWith name "." then []
  else
    ((splitChar '.' (name.data.dropWhile (fun c => c = '.'))).drop 1).map
      (fun cs => "." ++ String.mk cs)

/-- Embedding of `str(dataset_path / offset)` for the paths in scope: an
offset that is itself absolute replaces the base (pathlib semantics),
otherwise the two are joined with a slash. -/
def pyJoin (dataset_path offset : String) : String :=
  if strStartsWith offset "/" then offset else dataset_path ++ "/" ++ offset

/-- Embedding of `resolve_absolute_offset` (model.py lines 279-321).
The target-path test in the source is
`str(target_path.absolute()).startswith(str(dataset_path))`, a plain string
prefix test; the tar test is `".tar" in dataset_path.suffixes`. -/
def resolve_absolute_offset (dataset_path : String) (offset : String)
    (target_path : Option String) : String :=
  if (match target_path with
      | some t => strStartsWith t dataset_path
      | none => false) then
    offset
  else if ".tar" ∈ pySuffixes dataset_path then
    "tar:" ++ dataset_path ++ "!" ++ offset
  else
    pyJoin dataset_path offset

/-- Spec-side predicate, following the specification words: the target path
lives inside the dataset root, i.e. it is the root itself or a path below
it.  Used only to compare the claim text with the code, never to define the
embedding. -/
def livesInsideSpec (target root : String) : Bool :=
  target = root || strStartsWith target (root ++ "/")

/-! ## Data model (model.py lines 62-85 and the affine library) -/

/-- Affine transform as stored by the `affine` library: the six coefficients
of the first two rows of the 3 by 3 matrix (the third row is the constant
(0, 0, 1)).  `xoff` and `yoff` are the library's aliases for `c` and `f`. -/
structure Affine where
  a : Rat
  b : Rat
  c : Rat
  d : Rat
  e : Rat
  f : Rat
deriving DecidableEq

/-- Alias `xoff = c` of the affine library. -/
def Affine.xoff (t : Affine) : Rat := t.c

/-- Alias `yoff = f` of the affine library. -/
def Affine.yoff (t : Affine) : Rat := t.f

instance : Inhabited Affine := ⟨⟨0, 0, 0, 0, 0, 0⟩⟩

/-- Embedding of `GridDoc` (model.py lines 72-75): shape plus transform,
with structural (exact) equality and usable as a mapping key. -/
structure GridDoc where
  shape : Nat × Nat
  transform : Affine
deriving DecidableEq

/-- Embedding of `MeasurementDoc` (model.py lines 78-85).  The `name` field
defaults to `None` in the source; the grid-naming code joins names with an
underscore, so the embedding restricts attention to named measurements. -/
structure MeasurementDoc where
  path : String
  band : Option Nat := some 1
  layer : Option String := none
  grid : String := "default"
  name : String
deriving DecidableEq

/-- Mocked rasterio dataset: what `valid_region` reads from an opened file.
`bandCount` is `len(ds.indexes)`, `nodata` is `ds.nodata` (`none` when the
file declares no nodata value), `data` is `ds.read(1)`. -/
structure Raster where
  transform : Affine
  bandCount : Nat
  nodata : Option Int
  data : List (List Int)

/-- Shape of the raster, as numpy reports it for the rectangular arrays
rasterio produces: (rows, columns). -/
def Raster.shape (r : Raster) : Nat × Nat :=
  (r.data.length, (r.data.headD []).length)

/-- Validity masks are 2-d boolean arrays. -/
abbrev Mask := List (List Bool)

/-- Elementwise logical OR of two masks (numpy `|=`). -/
def maskOr (m1 m2 : Mask) : Mask :=
  List.zipWith (fun r1 r2 => List.zipWith (fun x y => x || y) r1 r2) m1 m2

/-- Numpy elementwise `!=` against a possibly missing nodata value: when the
raster declares no nodata value (`ds.nodata is None`), every element
compares unequal to `None`, so the result is `true` everywhere. -/
def numpyNe (v : Int) (nodata : Option Int) : Bool :=
  match nodata with
  | none => true
  | some n => decide (v ≠ n)

/-- Embedding of the mask computation of model.py lines 355-358.  Python
parses `img & mask_value == mask_value` as `(img & mask_value) == mask_value`
because comparisons bind less tightly than bitwise AND. -/
def newMask (img : List (List Int)) (mask_value : Option Int)
    (nodata : Option Int) : Mask :=
  match mask_value with
  | some mv => img.map (fun row => row.map (fun p => decide (Int.land p mv = mv)))
  | none => img.map (fun row => row.map (fun p => numpyNe p nodata))

/-- Error taxonomy: `InputError` embeds the `ValueError` raise and
`UnsupportedFormatError` the `NotImplementedError` raise of `valid_region`,
following the names the specification gives these conditions. -/
inductive VRError where
  | InputError (msg : String)
  | UnsupportedFormatError (msg : String)
deriving DecidableEq

/-! ## Symbolic geometry pipeline -/

/-- Symbolic record of the shapely pipeline of model.py lines 386-419: each
constructor is one operation, carrying the numeric parameters the code
passes.  `vectorUnion` stands for vectorizing each per-grid mask with
`rasterio.features.shapes` and merging the polygons with `unary_union`;
`buffer` records distance, `join_style` and `cap_style` exactly as passed. -/
inductive Geom where
  | vectorUnion (masks : List Mask)
  | convexHull (g : Geom)
  | buffer (g : Geom) (dist : Rat) (joinStyle capStyle : Nat)
  | simplify (g : Geom) (tolerance : Rat)
  | intersectBox (g : Geom) (minx miny maxx maxy : Rat)
  | affineTransform (g : Geom) (a b d e xoff yoff : Rat)
deriving DecidableEq

/-- Shapely `JOIN_STYLE.round` constant. -/
def JOIN_STYLE_round : Nat := 1

/-- Shapely `JOIN_STYLE.mitre` constant. -/
def JOIN_STYLE_mitre : Nat := 2

/-- Shapely `JOIN_STYLE.bevel` constant. -/
def JOIN_STYLE_bevel : Nat := 3

/-- Shapely `CAP_STYLE.round` constant. -/
def CAP_STYLE_round : Nat := 1

/-- Shapely `CAP_STYLE.flat` constant. -/
def CAP_STYLE_flat : Nat := 2

/-- Shapely `CAP_STYLE.square` constant. -/
def CAP_STYLE_square : Nat := 3

/-- Masks recorded at the `vectorUnion` leaf of a pipeline term. -/
def Geom.unionMasks : Geom → List Mask
  | .vectorUnion ms => ms
  | .convexHull g => g.unionMasks
  | .buffer g _ _ _ => g.unionMasks
  | .simplify g _ => g.unionMasks
  | .intersectBox g _ _ _ _ => g.unionMasks
  | .affineTransform g _ _ _ _ _ _ => g.unionMasks

/-- Parameters of the (unique, if any) `buffer` node of a pipeline term. -/
def bufferParamsOf : Geom → Option (Rat × Nat × Nat)
  | .vectorUnion _ => none
  | .convexHull g => bufferParamsOf g
  | .buffer _ d j c => some (d, j, c)
  | .simplify g _ => bufferParamsOf g
  | .intersectBox g _ _ _ _ => bufferParamsOf g
  | .affineTransform g _ _ _ _ _ _ => bufferParamsOf g

/-- Geometry component of a `valid_region` result. -/
def geomOf (r : Except VRError (Geom × List (String × GridDoc) × List MeasurementDoc)) :
    Option Geom :=
  match r with
  | .ok (g, _, _) => some g
  | .error _ => none

/-- Action of `shapely.affinity.affine_transform` with coefficient list
[a, b, d, e, xoff, yoff] on a single vertex, per the shapely documentation. -/
def applyAffine (a b d e xoff yoff : Rat) (x y : Rat) : Rat × Rat :=
  (a * x + b * y + xoff, d * x + e * y + yoff)

/-! ## The measurement loop of `valid_region` (model.py lines 341-365) -/

/-- Loop state of `valid_region`: the two grid-keyed insertion-ordered
dictionaries plus the loop-carried `mask` and `transform` variables, which
after the loop hold the values from the last-processed raster. -/
structure LoopState where
  measurements_by_grid : List (GridDoc × List MeasurementDoc)
  mask_by_grid : List (GridDoc × Mask)
  mask : Option Mask
  transform : Option Affine

/-- Empty loop state (`defaultdict(list)`, `{}`, `mask = None`). -/
def initState : LoopState :=
  { measurements_by_grid := [], mask_by_grid := [], mask := none, transform := none }

/-- Append a measurement to the bucket of its grid, creating the bucket at
the end on first use: `defaultdict(list)[grid].append(measurement)` with
Python dict insertion order. -/
def appendToGroup (l : List (GridDoc × List MeasurementDoc)) (g : GridDoc)
    (m : MeasurementDoc) : List (GridDoc × List MeasurementDoc) :=
  match l with
  | [] => [(g, [m])]
  | (g', ms) :: rest =>
    if g' = g then (g', ms ++ [m]) :: rest else (g', ms) :: appendToGroup rest g m

/-- Dictionary lookup `d.get(k)` on an insertion-ordered association list. -/
def alGet (l : List (GridDoc × Mask)) (g : GridDoc) : Option Mask :=
  match l with
  | [] => none
  | (g', v) :: rest => if g' = g then some v else alGet rest g

/-- Dictionary assignment `d[k] = v` on an insertion-ordered association
list: an existing key keeps its position, a new key is appended. -/
def alSet (l : List (GridDoc × Mask)) (g : GridDoc) (v : Mask) :
    List (GridDoc × Mask) :=
  match l with
  | [] => [(g, v)]
  | (g', v') :: rest =>
    if g' = g then (g', v) :: rest else (g', v') :: alSet rest g v

/-- One iteration of the measurement loop after the single-band guard:
record the grid, compute the measurement's validity mask, and OR it into the
accumulated mask of its grid (model.py lines 351-365). -/
def stepState (fs : String → Raster) (path : String) (mask_value : Option Int)
    (st : LoopState) (measurement : MeasurementDoc) : LoopState :=
  let measurement_path := resolve_absolute_offset path measurement.path none
  let ds := fs measurement_path
  let transform := ds.transform
  let img := ds.data
  let grid : GridDoc := { shape := ds.shape, transform := transform }
  let nm := newMask img mask_value ds.nodata
  let mask :=
    match alGet st.mask_by_grid grid with
    | none => nm
    | some m0 => maskOr m0 nm
  { measurements_by_grid := appendToGroup st.measurements_by_grid grid measurement,
    mask_by_grid := alSet st.mask_by_grid grid mask,
    mask := some mask,
    transform := some transform }

/-- One iteration of the measurement loop including the single-band guard of
model.py lines 347-350, which raises `NotImplementedError` for any raster
reporting other than one band. -/
def processMeasurement (fs : String → Raster) (path : String)
    (mask_value : Option Int) (st : LoopState) (measurement : MeasurementDoc) :
    Except VRError LoopState :=
  let measurement_path := resolve_absolute_offset path measurement.path none
  if (fs measurement_path).bandCount ≠ 1 then
    .error (.UnsupportedFormatError
      ("Only single-band tifs currently supported. File " ++ measurement_path))
  else
    .ok (stepState fs path mask_value st measurement)

/-! ## Grid naming and the result assembly (model.py lines 367-421) -/

/-- Ascending-by-member-count comparison used by
`sorted(measurements_by_grid.items(), key=lambda k: len(k[1]))`. -/
def leByCount (x y : GridDoc × List MeasurementDoc) : Prop :=
  x.2.length ≤ y.2.length

instance : DecidableRel leByCount :=
  fun x y => Nat.decLe x.2.length y.2.length

instance leByCountTotal : IsTotal (GridDoc × List MeasurementDoc) leByCount :=
  ⟨fun x y => Nat.le_total x.2.length y.2.length⟩

instance leByCountTrans : IsTrans (GridDoc × List MeasurementDoc) leByCount :=
  ⟨fun _ _ _ h1 h2 => Nat.le_trans h1 h2⟩

/-- Name assembled by `"_".join(m.name for m in measurements)`. -/
def joinNames (ms : List MeasurementDoc) : String :=
  String.intercalate "_" (ms.map (fun m => m.name))

/-- Named groups in the order the source builds its `grids` dict: the
most-frequent group (the last of the ascending sort) named "default" first,
then the remaining groups, each named by joining its member names
(model.py lines 371-384). -/
def namedGroups (sorted : List (GridDoc × List MeasurementDoc)) :
    List (String × GridDoc × List MeasurementDoc) :=
  match sorted.getLast? with
  | none => []
  | some top =>
    ("default", top.1, top.2) :: sorted.dropLast.map (fun p => (joinNames p.2, p.1, p.2))

/-- Grid name a measurement receives: the name of the first named group
whose member list contains it.  This reproduces the `m.grid = name`
mutations of `name_grid`, which assign each measurement the name of its own
group (each measurement belongs to exactly one group). -/
def assignedName (ngs : List (String × GridDoc × List MeasurementDoc))
    (m : MeasurementDoc) : String :=
  match ngs with
  | [] => m.grid
  | e :: rest => if m ∈ e.2.2 then e.1 else assignedName rest m

/-- Python `dict(...)` built from a pair list: first occurrence fixes the
key position, a later duplicate key overwrites the value in place. -/
def pyDictInsert (l : List (String × GridDoc)) (k : String) (v : GridDoc) :
    List (String × GridDoc) :=
  if k ∈ l.map Prod.fst then
    l.map (fun p => if p.1 = k then (k, v) else p)
  else
    l ++ [(k, v)]

/-- Python `dict(pairs)`. -/
def pyDict (ps : List (String × GridDoc)) : List (String × GridDoc) :=
  ps.foldl (fun acc p => pyDictInsert acc p.1 p.2) []

/-- Number of rows of a mask (`mask.shape[0]`). -/
def rowsOf (mk : Mask) : Nat := mk.length

/-- Number of columns of a mask (`mask.shape[1]` for a rectangular array). -/
def colsOf (mk : Mask) : Nat := (mk.headD []).length

/-- Everything `valid_region` does after the measurement loop: sort the
groups by member count, name them, build the grids dict, assign each
measurement its grid name, and assemble the geometry pipeline
(model.py lines 367-421). -/
def finishRegion (measurements : List MeasurementDoc) (st : LoopState) :
    Geom × List (String × GridDoc) × List MeasurementDoc :=
  let grids_by_frequency := List.insertionSort leByCount st.measurements_by_grid
  let ngs := namedGroups grids_by_frequency
  let grids := pyDict (ngs.map (fun e => (e.1, e.2.1)))
  let ms2 := measurements.map (fun m => { m with grid := assignedName ngs m })
  let masksList := st.mask_by_grid.map (fun p => p.2)
  let lastMask := st.mask.getD []
  let t := st.transform.getD default
  let geom :=
    Geom.affineTransform
      (Geom.intersectBox
        (Geom.simplify
          (Geom.buffer (Geom.convexHull (Geom.vectorUnion masksList)) 1 3 3)
          1)
        0 0 (colsOf lastMask : Rat) (rowsOf lastMask : Rat))
      t.a t.b t.d t.e t.xoff t.yoff
  (geom, grids, ms2)

/-- Embedding of `valid_region` (model.py lines 330-421) over the mocked
filesystem `fs`.  Returns the symbolic geometry, the grid-name dictionary,
and the measurement list with the `grid` fields the source mutates. -/
def valid_region (fs : String → Raster) (path : String)
    (measurements : List MeasurementDoc) (mask_value : Option Int) :
    Except VRError (Geom × List (String × GridDoc) × List MeasurementDoc) :=
  if measurements.isEmpty then
    .error (.InputError "No measurements: cannot calculate valid region")
  else
    match List.foldlM (processMeasurement fs path mask_value) initState measurements with
    | .error e => .error e
    | .ok st => .ok (finishRegion measurements st)

/-! ## Analysis definitions (independent recomputations used in theorems) -/

/-- Raster a measurement refers to. -/
def rasterOf (fs : String → Raster) (path : String) (m : MeasurementDoc) : Raster :=
  fs (resolve_absolute_offset path m.path none)

/-- Grid of a measurement's raster. -/
def gridOf (fs : String → Raster) (path : String) (m : MeasurementDoc) : GridDoc :=
  { shape := (rasterOf fs path m).shape, transform := (rasterOf fs path m).transform }

/-- Validity mask of a single measurement's raster. -/
def measMask (fs : String → Raster) (path : String) (mask_value : Option Int)
    (m : MeasurementDoc) : Mask :=
  newMask (rasterOf fs path m).data mask_value (rasterOf fs path m).nodata

/-- Distinct elements of a list in order of first occurrence. -/
def firstOcc (l : List GridDoc) : List GridDoc :=
  l.foldl (fun acc g => if g ∈ acc then acc else acc ++ [g]) []

/-- Distinct grids of a measurement list, in order of first occurrence. -/
def inputGrids (fs : String → Raster) (path : String) (ms : List MeasurementDoc) :
    List GridDoc :=
  firstOcc (ms.map (gridOf fs path))

/-- Measurements of a list lying on a given grid, in supplied order. -/
def membersOn (fs : String → Raster) (path : String) (ms : List MeasurementDoc)
    (g : GridDoc) : List MeasurementDoc :=
  ms.filter (fun m => decide (gridOf fs path m = g))

/-- Left fold of logical OR over a mask list, seeded by the first element
(the accumulation pattern of model.py lines 360-365). -/
def accMask (l : List Mask) : Mask :=
  match l with
  | [] => []
  | h :: t => t.foldl maskOr h

/-- Accumulated validity mask of a grid: OR over the masks of the
measurements on it. -/
def accMaskOf (fs : String → Raster) (path : String) (mask_value : Option Int)
    (ms : List MeasurementDoc) (g : GridDoc) : Mask :=
  accMask ((membersOn fs path ms g).map (measMask fs path mask_value))

/-- Loop state reached after processing a measurement list: grouped
measurements, accumulated per-grid masks, and the last-processed mask and
transform. -/
def stateFor (fs : String → Raster) (path : String) (mask_value : Option Int)
    (l : List MeasurementDoc) : LoopState :=
  { measurements_by_grid :=
      (inputGrids fs path l).map (fun g => (g, membersOn fs path l g)),
    mask_by_grid :=
      (inputGrids fs path l).map (fun g => (g, accMaskOf fs path mask_value l g)),
    mask := l.getLast?.map (fun m => accMaskOf fs path mask_value l (gridOf fs path m)),
    transform := l.getLast?.map (fun m => (rasterOf fs path m).transform) }

/-- Entry of a mask at a row and column index, `false` out of bounds. -/
def Mask.getE (mk : Mask) (i j : Nat) : Bool :=
  (mk.getD i []).getD j false


/-- Box parameters of the (unique, if any) `intersectBox` node. -/
def boxParamsOf : Geom → Option (Rat × Rat × Rat × Rat)
  | .vectorUnion _ => none
  | .convexHull g => boxParamsOf g
  | .buffer g _ _ _ => boxParamsOf g
  | .simplify g _ => boxParamsOf g
  | .intersectBox _ x0 y0 x1 y1 => some (x0, y0, x1, y1)
  | .affineTransform g _ _ _ _ _ _ => boxParamsOf g

/-- Coefficients of the (unique, if any) `affineTransform` node. -/
def affineParamsOf : Geom → Option (Rat × Rat × Rat × Rat × Rat × Rat)
  | .vectorUnion _ => none
  | .convexHull g => affineParamsOf g
  | .buffer g _ _ _ => affineParamsOf g
  | .simplify g _ => affineParamsOf g
  | .intersectBox g _ _ _ _ => affineParamsOf g
  | .affineTransform _ a b d e xo yo => some (a, b, d, e, xo, yo)

/-! ## Concrete fixtures for witnesses and counterexamples -/

/-- Identity-like pixel transform. -/
def tUnit : Affine := ⟨1, 0, 0, 0, 1, 0⟩

/-- A second, distinct transform (with offsets). -/
def tBig : Affine := ⟨2, 0, 9, 0, 3, 7⟩

/-- A third distinct transform. -/
def tQuad : Affine := ⟨4, 0, 0, 0, 4, 0⟩

/-- Raster of the 1 by 4 bit-flag scenario with pixels 0, 1, 2, 3. -/
def rScene : Raster :=
  { transform := tUnit, bandCount := 1, nodata := some 0, data := [[0, 1, 2, 3]] }

/-- Single-band raster that declares no nodata value. -/
def rNoNodata : Raster :=
  { transform := tUnit, bandCount := 1, nodata := none, data := [[5, 7]] }

/-- Raster reporting two bands. -/
def rMulti : Raster :=
  { transform := tUnit, bandCount := 2, nodata := some 0, data := [[1]] }

/-- Rasters on three distinct grids. -/
def rA : Raster :=
  { transform := tUnit, bandCount := 1, nodata := some 0, data := [[1]] }

/-- Raster on the second grid. -/
def rB : Raster :=
  { transform := tBig, bandCount := 1, nodata := some 0, data := [[6]] }

/-- Raster on the third grid. -/
def rC : Raster :=
  { transform := tQuad, bandCount := 1, nodata := some 0, data := [[2]] }

/-- A 2 by 2 raster on the unit grid. -/
def rOne : Raster :=
  { transform := tUnit, bandCount := 1, nodata := some 0, data := [[1, 2], [3, 4]] }

/-- A 2 by 2 raster whose mask is [[false, true], [false, true]]. -/
def rZ1 : Raster :=
  { transform := tUnit, bandCount := 1, nodata := some 0, data := [[0, 5], [0, 7]] }

/-- A 2 by 2 raster on the same grid as `rZ1` with a fully valid mask. -/
def rZ2 : Raster :=
  { transform := tUnit, bandCount := 1, nodata := some 0, data := [[1, 1], [1, 1]] }

/-- Filesystem serving the bit-flag scenario raster everywhere. -/
def fsScene : String → Raster := fun _ => rScene

/-- Filesystem serving the nodata-free raster everywhere. -/
def fsNoNodata : String → Raster := fun _ => rNoNodata

/-- Filesystem serving the two-band raster everywhere. -/
def fsMulti : String → Raster := fun _ => rMulti

/-- Filesystem with two grids: paths a1/a2 on the unit grid, b1 elsewhere. -/
def fsGrids : String → Raster := fun p =>
  if p = "/d/a1.tif" ∨ p = "/d/a2.tif" then rA else rB

/-- Filesystem with three grids, for the name-collision scenario. -/
def fsCollide : String → Raster := fun p =>
  if p = "/d/p.tif" ∨ p = "/d/q.tif" ∨ p = "/d/r.tif" then rA
  else if p = "/d/x.tif" ∨ p = "/d/y.tif" then rB
  else rC

/-- Filesystem for the last-raster scenario: w1 on a 2 by 2 grid, every
other path on a 1 by 1 grid with a distinct transform. -/
def fsPair : String → Raster := fun p =>
  if p = "/d/w1.tif" then rOne else rB

/-- Filesystem for the OR-accumulation scenario: two rasters sharing one
grid. -/
def fsOrMask : String → Raster := fun p =>
  if p = "/d/z1.tif" then rZ1 else rZ2

/-- Measurement referencing the scenario raster. -/
def mScene : MeasurementDoc := { path := "a.tif", name := "a" }

/-- Measurement whose raster declares no nodata. -/
def mNoNodata : MeasurementDoc := { path := "a.tif", name := "a" }

/-- Measurement whose raster reports two bands. -/
def mMulti : MeasurementDoc := { path := "a.tif", name := "a" }

/-- Measurements for the two-grid naming scenario. -/
def mRed : MeasurementDoc := { path := "a1.tif", name := "red" }

/-- Second measurement on the unit grid. -/
def mGreen : MeasurementDoc := { path := "a2.tif", name := "green" }

/-- Measurement on the second grid. -/
def mBlue : MeasurementDoc := { path := "b1.tif", name := "blue" }

/-- Measurements for the name-collision scenario: three on the default
grid, two named x and y on a second grid, and one literally named x_y on a
third grid. -/
def mP : MeasurementDoc := { path := "p.tif", name := "p" }

/-- Second default-grid measurement. -/
def mQ : MeasurementDoc := { path := "q.tif", name := "q" }

/-- Third default-grid measurement. -/
def mR : MeasurementDoc := { path := "r.tif", name := "r" }

/-- Measurement named x on the second grid. -/
def mX : MeasurementDoc := { path := "x.tif", name := "x" }

/-- Measurement named y on the second grid. -/
def mY : MeasurementDoc := { path := "y.tif", name := "y" }

/-- Measurement literally named x_y on the third grid. -/
def mXY : MeasurementDoc := { path := "z.tif", name := "x_y" }

/-- First measurement of the last-raster scenario. -/
def mW1 : MeasurementDoc := { path := "w1.tif", name := "w1" }

/-- Second (last-processed) measurement of the last-raster scenario. -/
def mW2 : MeasurementDoc := { path := "w2.tif", name := "w2" }

/-- First measurement of the OR-accumulation scenario. -/
def mZ1 : MeasurementDoc := { path := "z1.tif", name := "z1" }

/-- Second measurement of the OR-accumulation scenario. -/
def mZ2 : MeasurementDoc := { path := "z2.tif", name := "z2" }

/-- Groups of the measurement list, keyed by grid in first-occurrence
order, members in supplied order. -/
def groupsOf (fs : String → Raster) (path : String) (ms : List MeasurementDoc) :
    List (GridDoc × List MeasurementDoc) :=
  (inputGrids fs path ms).map (fun g => (g, membersOn fs path ms g))

/-- Groups sorted ascending by member count, as `valid_region` sorts them.
Python `sorted` and `List.insertionSort` are both stable ascending sorts,
so they agree. -/
def sortedGroups (fs : String → Raster) (path : String)
    (ms : List MeasurementDoc) : List (GridDoc × List MeasurementDoc) :=
  List.insertionSort leByCount (groupsOf fs path ms)

/-! ## Lemmas about the measurement loop -/

/-- The loop body succeeds exactly on single-band rasters, and then acts as
the pure step. -/
theorem processMeasurement_ok (fs : String → Raster) (path : String)
    (mv : Option Int) (st : LoopState) (m : MeasurementDoc)
    (hb : (rasterOf fs path m).bandCount = 1) :
    processMeasurement fs path mv st m = .ok (stepState fs path mv st m) := by
  unfold processMeasurement
  simp only [rasterOf] at hb
  simp [hb]

/-- The loop body fails with an `UnsupportedFormatError` on a raster that is
not single-band. -/
theorem processMeasurement_err (fs : String → Raster) (path : String)
    (mv : Option Int) (st : LoopState) (m : MeasurementDoc)
    (hb : (rasterOf fs path m).bandCount ≠ 1) :
    processMeasurement fs path mv st m =
      .error (.UnsupportedFormatError
        ("Only single-band tifs currently supported. File " ++
          resolve_absolute_offset path m.path none)) := by
  unfold processMeasurement
  simp only [rasterOf] at hb
  simp [hb]

/-- When every referenced raster is single-band, the measurement loop
succeeds and computes the pure fold of the step function. -/
theorem foldlM_process_ok (fs : String → Raster) (path : String) (mv : Option Int) :
    ∀ (ms : List MeasurementDoc) (st : LoopState),
      (∀ m ∈ ms, (rasterOf fs path m).bandCount = 1) →
      List.foldlM (processMeasurement fs path mv) st ms =
        .ok (List.foldl (stepState fs path mv) st ms) := by
  intro ms
  induction ms with
  | nil => intro st _; rfl
  | cons m rest ih =>
    intro st hb
    rw [List.foldlM_cons, processMeasurement_ok fs path mv st m (hb m (by simp))]
    show List.foldlM _ _ rest = _
    rw [ih _ (fun x hx => hb x (by simp [hx])), List.foldl_cons]

/-- The measurement loop either succeeds or fails with an
`UnsupportedFormatError`; no other error is possible. -/
theorem foldlM_process_cases (fs : String → Raster) (path : String) (mv : Option Int) :
    ∀ (ms : List MeasurementDoc) (st : LoopState),
      (∃ st', List.foldlM (processMeasurement fs path mv) st ms = .ok st') ∨
      (∃ msg, List.foldlM (processMeasurement fs path mv) st ms =
        .error (.UnsupportedFormatError msg)) := by
  intro ms
  induction ms with
  | nil => intro st; exact .inl ⟨st, rfl⟩
  | cons m rest ih =>
    intro st
    by_cases hb : (rasterOf fs path m).bandCount = 1
    · rw [List.foldlM_cons, processMeasurement_ok fs path mv st m hb]
      exact ih (stepState fs path mv st m)
    · right
      refine ⟨"Only single-band tifs currently supported. File " ++
        resolve_absolute_offset path m.path none, ?_⟩
      rw [List.foldlM_cons, processMeasurement_err fs path mv st m hb]
      rfl

/-- If the measurement loop succeeds, every referenced raster was
single-band. -/
theorem foldlM_process_bands (fs : String → Raster) (path : String) (mv : Option Int) :
    ∀ (ms : List MeasurementDoc) (st st' : LoopState),
      List.foldlM (processMeasurement fs path mv) st ms = .ok st' →
      ∀ m ∈ ms, (rasterOf fs path m).bandCount = 1 := by
  intro ms
  induction ms with
  | nil => intro st st' _ m hm; cases hm
  | cons m0 rest ih =>
    intro st st' h m hm
    by_cases hb : (rasterOf fs path m0).bandCount = 1
    · rw [List.foldlM_cons, processMeasurement_ok fs path mv st m0 hb] at h
      rcases List.mem_cons.mp hm with hm | hm
      · exact hm ▸ hb
      · exact ih _ _ h m hm
    · rw [List.foldlM_cons, processMeasurement_err fs path mv st m0 hb] at h
      cases h

/-- Characterization of a successful `valid_region` run: the input is
nonempty, every raster is single-band, and the result is the finishing
phase applied to the fold of the pure step. -/
theorem valid_region_ok (fs : String → Raster) (path : String)
    (ms : List MeasurementDoc) (mv : Option Int)
    (res : Geom × List (String × GridDoc) × List MeasurementDoc)
    (h : valid_region fs path ms mv = .ok res) :
    ms ≠ [] ∧ (∀ m ∈ ms, (rasterOf fs path m).bandCount = 1) ∧
      res = finishRegion ms (List.foldl (stepState fs path mv) initState ms) := by
  unfold valid_region at h
  by_cases hne : ms.isEmpty
  · rw [if_pos hne] at h; cases h
  · rw [if_neg hne] at h
    have hne' : ms ≠ [] := fun hnil => hne (by simp [hnil])
    rcases hfold : List.foldlM (processMeasurement fs path mv) initState ms with e | st
    · rw [hfold] at h; cases h
    · rw [hfold] at h
      have hb := foldlM_process_bands fs path mv ms initState st hfold
      have := foldlM_process_ok fs path mv ms initState hb
      rw [hfold] at this
      cases this
      exact ⟨hne', hb, by cases h; rfl⟩

/-- Conversely, a nonempty all-single-band input makes `valid_region`
succeed with the finishing phase of the pure fold. -/
theorem valid_region_ok_of (fs : String → Raster) (path : String)
    (ms : List MeasurementDoc) (mv : Option Int) (hne : ms ≠ [])
    (hb : ∀ m ∈ ms, (rasterOf fs path m).bandCount = 1) :
    valid_region fs path ms mv =
      .ok (finishRegion ms (List.foldl (stepState fs path mv) initState ms)) := by
  unfold valid_region
  rw [if_neg (by simp [hne]), foldlM_process_ok fs path mv ms initState hb]

/-! ## Lemmas about first-occurrence deduplication and grouping -/

/-- Membership in the first-occurrence fold. -/
theorem mem_firstOcc_aux (l : List GridDoc) :
    ∀ (acc : List GridDoc) (x : GridDoc),
      x ∈ l.foldl (fun acc g => if g ∈ acc then acc else acc ++ [g]) acc ↔
        x ∈ acc ∨ x ∈ l := by
  induction l with
  | nil => intro acc x; simp
  | cons g rest ih =>
    intro acc x
    rw [List.foldl_cons, ih]
    by_cases hg : g ∈ acc
    · simp only [if_pos hg, List.mem_cons]
      constructor
      · rintro (h | h)
        · exact .inl h
        · exact .inr (.inr h)
      · rintro (h | h | h)
        · exact .inl h
        · exact .inl (h ▸ hg)
        · exact .inr h
    · simp only [if_neg hg, List.mem_append, List.mem_singleton, List.mem_cons]
      tauto

/-- Membership in `firstOcc` is membership in the original list. -/
theorem mem_firstOcc (l : List GridDoc) (x : GridDoc) :
    x ∈ firstOcc l ↔ x ∈ l := by
  rw [firstOcc, mem_firstOcc_aux]
  simp

/-- The first-occurrence fold preserves having no duplicates. -/
theorem nodup_firstOcc_aux (l : List GridDoc) :
    ∀ acc : List GridDoc, acc.Nodup →
      (l.foldl (fun acc g => if g ∈ acc then acc else acc ++ [g]) acc).Nodup := by
  induction l with
  | nil => intro acc h; simpa using h
  | cons g rest ih =>
    intro acc h
    rw [List.foldl_cons]
    by_cases hg : g ∈ acc
    · rw [if_pos hg]; exact ih acc h
    · rw [if_neg hg]
      exact ih _ (by simp [List.nodup_append, h, hg])

/-- The first-occurrence list has no duplicates. -/
theorem nodup_firstOcc (l : List GridDoc) : (firstOcc l).Nodup :=
  nodup_firstOcc_aux l [] List.nodup_nil

/-- Behaviour of `firstOcc` on a snoc. -/
theorem firstOcc_snoc (l : List GridDoc) (a : GridDoc) :
    firstOcc (l ++ [a]) =
      if a ∈ firstOcc l then firstOcc l else firstOcc l ++ [a] := by
  simp [firstOcc, List.foldl_append]

/-- Membership in a grid's member list. -/
theorem mem_membersOn (fs : String → Raster) (path : String)
    (ms : List MeasurementDoc) (g : GridDoc) (m : MeasurementDoc) :
    m ∈ membersOn fs path ms g ↔ m ∈ ms ∧ gridOf fs path m = g := by
  simp [membersOn]

/-- Member lists on a snoc of the measurement list. -/
theorem membersOn_snoc (fs : String → Raster) (path : String)
    (l : List MeasurementDoc) (m : MeasurementDoc) (g : GridDoc) :
    membersOn fs path (l ++ [m]) g =
      membersOn fs path l g ++ if gridOf fs path m = g then [m] else [] := by
  simp only [membersOn, List.filter_append]
  congr 1
  by_cases h : gridOf fs path m = g <;> simp [h]

/-- A grid absent from a measurement list has no members. -/
theorem membersOn_eq_nil (fs : String → Raster) (path : String)
    (l : List MeasurementDoc) (g : GridDoc)
    (h : g ∉ l.map (gridOf fs path)) : membersOn fs path l g = [] := by
  rw [membersOn, List.filter_eq_nil_iff]
  intro m hm
  simp only [decide_eq_true_eq]
  exact fun he => h (he ▸ List.mem_map_of_mem (gridOf fs path) hm)

/-- A grid present in a measurement list has members. -/
theorem membersOn_ne_nil (fs : String → Raster) (path : String)
    (l : List MeasurementDoc) (g : GridDoc)
    (h : g ∈ l.map (gridOf fs path)) : membersOn fs path l g ≠ [] := by
  rcases List.mem_map.mp h with ⟨m, hm, he⟩
  intro hnil
  have : m ∈ membersOn fs path l g := (mem_membersOn fs path l g m).mpr ⟨hm, he⟩
  rw [hnil] at this
  cases this

/-- Appending a measurement under a key absent from the bucket list appends
a fresh bucket. -/
theorem appendToGroup_not_mem (g : GridDoc) (m : MeasurementDoc) :
    ∀ L : List (GridDoc × List MeasurementDoc),
      (∀ p ∈ L, p.1 ≠ g) → appendToGroup L g m = L ++ [(g, [m])] := by
  intro L
  induction L with
  | nil => intro _; rfl
  | cons p rest ih =>
    intro h
    obtain ⟨g', ms'⟩ := p
    rw [appendToGroup, if_neg (h (g', ms') (by simp))]
    rw [ih (fun q hq => h q (by simp [hq]))]
    rfl

/-- Appending a measurement under a key present in a keyed map extends
exactly that key's bucket. -/
theorem appendToGroup_mapped (g : GridDoc) (m : MeasurementDoc)
    (F : GridDoc → List MeasurementDoc) :
    ∀ G : List GridDoc, G.Nodup → g ∈ G →
      appendToGroup (G.map (fun x => (x, F x))) g m =
        G.map (fun x => (x, if x = g then F x ++ [m] else F x)) := by
  intro G
  induction G with
  | nil => intro _ h; cases h
  | cons x rest ih =>
    intro hnd hg
    rw [List.map_cons, List.map_cons, appendToGroup]
    by_cases hx : x = g
    · rw [if_pos hx, if_pos hx]
      subst hx
      congr 1
      have hxr : x ∉ rest := (List.nodup_cons.mp hnd).1
      apply List.map_congr_left
      intro y hy
      rw [if_neg (fun he : y = x => hxr (he ▸ hy))]
    · rw [if_neg hx, if_neg hx]
      have hgr : g ∈ rest := by
        rcases List.mem_cons.mp hg with h | h
        · exact absurd h.symm hx
        · exact h
      rw [ih (List.nodup_cons.mp hnd).2 hgr]

/-- Lookup misses on a keyed map without the key. -/
theorem alGet_not_mem (g : GridDoc) (F : GridDoc → Mask) :
    ∀ G : List GridDoc, g ∉ G →
      alGet (G.map (fun x => (x, F x))) g = none := by
  intro G
  induction G with
  | nil => intro _; rfl
  | cons x rest ih =>
    intro hg
    rw [List.map_cons, alGet, if_neg (fun he : x = g => hg (he ▸ List.mem_cons_self x rest))]
    exact ih (fun h => hg (List.mem_cons_of_mem x h))

/-- Lookup hits on a keyed map containing the key. -/
theorem alGet_mapped (g : GridDoc) (F : GridDoc → Mask) :
    ∀ G : List GridDoc, g ∈ G →
      alGet (G.map (fun x => (x, F x))) g = some (F g) := by
  intro G
  induction G with
  | nil => intro h; cases h
  | cons x rest ih =>
    intro hg
    rw [List.map_cons, alGet]
    by_cases hx : x = g
    · rw [if_pos hx, hx]
    · rw [if_neg hx]
      exact ih (by rcases List.mem_cons.mp hg with h | h; exact absurd h.symm hx; exact h)

/-- Assignment under an absent key appends the pair. -/
theorem alSet_not_mem (g : GridDoc) (v : Mask) (F : GridDoc → Mask) :
    ∀ G : List GridDoc, g ∉ G →
      alSet (G.map (fun x => (x, F x))) g v = G.map (fun x => (x, F x)) ++ [(g, v)] := by
  intro G
  induction G with
  | nil => intro _; rfl
  | cons x rest ih =>
    intro hg
    rw [List.map_cons, alSet, if_neg (fun he : x = g => hg (he ▸ List.mem_cons_self x rest))]
    rw [ih (fun h => hg (List.mem_cons_of_mem x h))]
    rfl

/-- Assignment under a present key rewrites exactly that key's value. -/
theorem alSet_mapped (g : GridDoc) (v : Mask) (F : GridDoc → Mask) :
    ∀ G : List GridDoc, G.Nodup → g ∈ G →
      alSet (G.map (fun x => (x, F x))) g v =
        G.map (fun x => (x, if x = g then v else F x)) := by
  intro G
  induction G with
  | nil => intro _ h; cases h
  | cons x rest ih =>
    intro hnd hg
    rw [List.map_cons, List.map_cons, alSet]
    by_cases hx : x = g
    · rw [if_pos hx, if_pos hx]
      subst hx
      congr 1
      have hxr : x ∉ rest := (List.nodup_cons.mp hnd).1
      apply List.map_congr_left
      intro y hy
      rw [if_neg (fun he : y = x => hxr (he ▸ hy))]
    · rw [if_neg hx, if_neg hx]
      have hgr : g ∈ rest := by
        rcases List.mem_cons.mp hg with h | h
        · exact absurd h.symm hx
        · exact h
      rw [ih (List.nodup_cons.mp hnd).2 hgr]

/-- Accumulation over a snoc of the mask list. -/
theorem accMask_snoc (L : List Mask) (x : Mask) :
    accMask (L ++ [x]) = if L.isEmpty then x else maskOr (accMask L) x := by
  cases L with
  | nil => rfl
  | cons h t => simp [accMask, List.foldl_append]

/-- Accumulated grid mask over a snoc, on the new measurement's grid. -/
theorem accMaskOf_snoc_same (fs : String → Raster) (path : String)
    (mv : Option Int) (l : List MeasurementDoc) (m : MeasurementDoc) :
    accMaskOf fs path mv (l ++ [m]) (gridOf fs path m) =
      if (membersOn fs path l (gridOf fs path m)).isEmpty then
        measMask fs path mv m
      else
        maskOr (accMaskOf fs path mv l (gridOf fs path m)) (measMask fs path mv m) := by
  rw [accMaskOf, membersOn_snoc, if_pos rfl, List.map_append, List.map_singleton,
    accMask_snoc]
  cases hmm : membersOn fs path l (gridOf fs path m) with
  | nil => simp [accMaskOf, hmm]
  | cons h t => simp [accMaskOf, hmm]

/-- Accumulated grid mask over a snoc, on any other grid. -/
theorem accMaskOf_snoc_other (fs : String → Raster) (path : String)
    (mv : Option Int) (l : List MeasurementDoc) (m : MeasurementDoc) (g : GridDoc)
    (h : gridOf fs path m ≠ g) :
    accMaskOf fs path mv (l ++ [m]) g = accMaskOf fs path mv l g := by
  rw [accMaskOf, membersOn_snoc, if_neg h, List.append_nil]
  rfl

/-! ## Closed form of the measurement loop -/

/-- One pure step starting from the canonical state for a prefix produces
the canonical state for the extended prefix. -/
theorem stateFor_snoc (fs : String → Raster) (path : String) (mv : Option Int)
    (l : List MeasurementDoc) (m : MeasurementDoc) :
    stepState fs path mv (stateFor fs path mv l) m = stateFor fs path mv (l ++ [m]) := by
  have hIG : inputGrids fs path (l ++ [m]) =
      if gridOf fs path m ∈ inputGrids fs path l then inputGrids fs path l
      else inputGrids fs path l ++ [gridOf fs path m] := by
    rw [inputGrids, List.map_append, List.map_singleton, firstOcc_snoc]
    rfl
  have hstep : stepState fs path mv (stateFor fs path mv l) m =
      { measurements_by_grid :=
          appendToGroup ((inputGrids fs path l).map
            (fun g => (g, membersOn fs path l g))) (gridOf fs path m) m,
        mask_by_grid :=
          alSet ((inputGrids fs path l).map
            (fun g => (g, accMaskOf fs path mv l g))) (gridOf fs path m)
            (match alGet ((inputGrids fs path l).map
                (fun g => (g, accMaskOf fs path mv l g))) (gridOf fs path m) with
              | none => measMask fs path mv m
              | some m0 => maskOr m0 (measMask fs path mv m)),
        mask := some (match alGet ((inputGrids fs path l).map
                (fun g => (g, accMaskOf fs path mv l g))) (gridOf fs path m) with
              | none => measMask fs path mv m
              | some m0 => maskOr m0 (measMask fs path mv m)),
        transform := some (rasterOf fs path m).transform } := rfl
  by_cases hg : gridOf fs path m ∈ inputGrids fs path l
  · have hget : alGet ((inputGrids fs path l).map
        (fun g => (g, accMaskOf fs path mv l g))) (gridOf fs path m) =
        some (accMaskOf fs path mv l (gridOf fs path m)) :=
      alGet_mapped _ _ _ hg
    have hMK : (match alGet ((inputGrids fs path l).map
        (fun g => (g, accMaskOf fs path mv l g))) (gridOf fs path m) with
          | none => measMask fs path mv m
          | some m0 => maskOr m0 (measMask fs path mv m)) =
        maskOr (accMaskOf fs path mv l (gridOf fs path m)) (measMask fs path mv m) := by
      rw [hget]
    have hmemne : membersOn fs path l (gridOf fs path m) ≠ [] :=
      membersOn_ne_nil fs path l _ ((mem_firstOcc _ _).mp hg)
    have hie : (membersOn fs path l (gridOf fs path m)).isEmpty = false := by
      cases hmm : membersOn fs path l (gridOf fs path m) with
      | nil => exact absurd hmm hmemne
      | cons a t => rfl
    have hsame : accMaskOf fs path mv (l ++ [m]) (gridOf fs path m) =
        maskOr (accMaskOf fs path mv l (gridOf fs path m)) (measMask fs path mv m) := by
      rw [accMaskOf_snoc_same, hie]
      rfl
    rw [hstep, hMK, stateFor, LoopState.mk.injEq]
    refine ⟨?_, ?_, ?_, ?_⟩
    · rw [hIG, if_pos hg,
        appendToGroup_mapped (gridOf fs path m) m (fun g => membersOn fs path l g)
          (inputGrids fs path l) (nodup_firstOcc _) hg]
      apply List.map_congr_left
      intro x hx
      by_cases hx0 : x = gridOf fs path m
      · subst hx0
        rw [if_pos rfl, membersOn_snoc, if_pos rfl]
      · rw [if_neg hx0, membersOn_snoc, if_neg (fun h => hx0 h.symm), List.append_nil]
    · rw [hIG, if_pos hg,
        alSet_mapped (gridOf fs path m) _ (fun g => accMaskOf fs path mv l g)
          (inputGrids fs path l) (nodup_firstOcc _) hg]
      apply List.map_congr_left
      intro x hx
      by_cases hx0 : x = gridOf fs path m
      · subst hx0
        rw [if_pos rfl, hsame]
      · rw [if_neg hx0, accMaskOf_snoc_other fs path mv l m x (fun h => hx0 h.symm)]
    · rw [List.getLast?_concat, Option.map_some', hsame]
    · rw [List.getLast?_concat, Option.map_some']
  · have hget : alGet ((inputGrids fs path l).map
        (fun g => (g, accMaskOf fs path mv l g))) (gridOf fs path m) = none :=
      alGet_not_mem _ _ _ hg
    have hMK : (match alGet ((inputGrids fs path l).map
        (fun g => (g, accMaskOf fs path mv l g))) (gridOf fs path m) with
          | none => measMask fs path mv m
          | some m0 => maskOr m0 (measMask fs path mv m)) = measMask fs path mv m := by
      rw [hget]
    have hmem0 : membersOn fs path l (gridOf fs path m) = [] :=
      membersOn_eq_nil fs path l _ (fun h => hg ((mem_firstOcc _ _).mpr h))
    have hsame : accMaskOf fs path mv (l ++ [m]) (gridOf fs path m) =
        measMask fs path mv m := by
      rw [accMaskOf_snoc_same, hmem0]
      rfl
    have hkeysne : ∀ x ∈ inputGrids fs path l, x ≠ gridOf fs path m :=
      fun x hx he => hg (he ▸ hx)
    rw [hstep, hMK, stateFor, LoopState.mk.injEq]
    refine ⟨?_, ?_, ?_, ?_⟩
    · rw [hIG, if_neg hg,
        appendToGroup_not_mem (gridOf fs path m) m _
          (fun p hp => by
            rcases List.mem_map.mp hp with ⟨x, hx, rfl⟩
            exact hkeysne x hx),
        List.map_append, List.map_singleton]
      congr 1
      · apply List.map_congr_left
        intro x hx
        rw [membersOn_snoc, if_neg (fun h => hkeysne x hx h.symm), List.append_nil]
      · rw [membersOn_snoc, if_pos rfl, hmem0]
        rfl
    · rw [hIG, if_neg hg,
        alSet_not_mem (gridOf fs path m) _ (fun g => accMaskOf fs path mv l g) _ hg,
        List.map_append, List.map_singleton]
      congr 1
      · apply List.map_congr_left
        intro x hx
        rw [accMaskOf_snoc_other fs path mv l m x (fun h => hkeysne x hx h.symm)]
      · rw [hsame]
    · rw [List.getLast?_concat, Option.map_some', hsame]
    · rw [List.getLast?_concat, Option.map_some']

/-- Closed form of the measurement loop: folding the pure step computes the
canonical grouped state. -/
theorem foldl_stepState_eq (fs : String → Raster) (path : String) (mv : Option Int)
    (l : List MeasurementDoc) :
    List.foldl (stepState fs path mv) initState l = stateFor fs path mv l := by
  induction l using List.reverseRecOn with
  | nil => rfl
  | append_singleton l m ih =>
    rw [List.foldl_append, List.foldl_cons, List.foldl_nil, ih, stateFor_snoc]

/-! ## Claim theorems: error behaviour and path resolution -/

/-- C4: an empty measurements collection makes `valid_region` fail with an
`InputError` ("no measurements") and return no result. -/
theorem C4_empty_measurements (fs : String → Raster) (path : String) (mv : Option Int) :
    valid_region fs path [] mv =
      .error (.InputError "No measurements: cannot calculate valid region") := rfl

/-- C5: if any measurement's resolved raster reports more than one band,
`valid_region` fails with an `UnsupportedFormatError`, returning neither
geometry nor grid mapping. -/
theorem C5_multiband_error (fs : String → Raster) (path : String)
    (ms : List MeasurementDoc) (mv : Option Int)
    (h : ∃ m ∈ ms, (rasterOf fs path m).bandCount ≠ 1) :
    ∃ msg, valid_region fs path ms mv = .error (.UnsupportedFormatError msg) := by
  obtain ⟨m0, hm0, hb⟩ := h
  have hne : ms ≠ [] := List.ne_nil_of_mem hm0
  rcases foldlM_process_cases fs path mv ms initState with ⟨st', hok⟩ | ⟨msg, herr⟩
  · exact absurd (foldlM_process_bands fs path mv ms initState st' hok m0 hm0) hb
  · refine ⟨msg, ?_⟩
    unfold valid_region
    rw [if_neg (by simp [hne]), herr]

/-- Witness for C5 at a concrete two-band raster. -/
theorem C5_multiband_error_witness :
    (valid_region fsMulti "/d" [mMulti] none).toOption = none := by
  obtain ⟨msg, h⟩ :=
    C5_multiband_error fsMulti "/d" [mMulti] none ⟨mMulti, by simp, by decide⟩
  rw [h]
  rfl

/-- C2: for a measurement raster, `valid_region` computes the validity mask
as (pixel AND mask_value) == mask_value when a mask value is supplied, and
as pixel != nodata when it is not (given the raster declares a nodata
value). -/
theorem C2_mask_formula (fs : String → Raster) (path : String)
    (m : MeasurementDoc) (mv : Option Int)
    (g : Geom) (grids : List (String × GridDoc)) (ms2 : List MeasurementDoc)
    (h : valid_region fs path [m] mv = .ok (g, grids, ms2)) :
    (∀ v, mv = some v →
      g.unionMasks = [(rasterOf fs path m).data.map
        (fun row => row.map (fun p => decide (Int.land p v = v)))]) ∧
    (∀ nd, mv = none → (rasterOf fs path m).nodata = some nd →
      g.unionMasks = [(rasterOf fs path m).data.map
        (fun row => row.map (fun p => decide (p ≠ nd)))]) := by
  obtain ⟨hne, hb, hres⟩ := valid_region_ok fs path [m] mv _ h
  rw [foldl_stepState_eq] at hres
  have hg : g = (finishRegion [m] (stateFor fs path mv [m])).1 := congrArg Prod.fst hres
  have hmask : g.unionMasks = [measMask fs path mv m] := by
    rw [hg]
    simp [finishRegion, Geom.unionMasks, stateFor, inputGrids, firstOcc, membersOn,
      accMaskOf, accMask]
  constructor
  · intro v hv
    subst hv
    rw [hmask]
    rfl
  · intro nd hv hnd
    subst hv
    rw [hmask]
    simp [measMask, newMask, numpyNe, hnd]

/-- Witness for C2: mask value 1 over pixels [0, 1, 2, 3] yields the mask
[false, true, false, true]. -/
theorem C2_mask_formula_witness :
    (valid_region fsScene "/d" [mScene] (some 1)).map (fun r => r.1.unionMasks) =
      .ok [[[false, true, false, true]]] := by
  obtain ⟨⟨g, grids, ms2⟩, hr⟩ :
      ∃ x, valid_region fsScene "/d" [mScene] (some 1) = .ok x := ⟨_, rfl⟩
  have h2 := (C2_mask_formula fsScene "/d" mScene (some 1) g grids ms2 hr).1 1 rfl
  rw [hr]
  simp only [Except.map]
  rw [h2]
  rfl

/-- Counterexample to C7 as stated: with no mask value and a raster whose
nodata is missing, `valid_region` succeeds instead of failing with an
`InputError`. -/
theorem C7_counterexample :
    (rasterOf fsNoNodata "/d" mNoNodata).nodata = none ∧
    (valid_region fsNoNodata "/d" [mNoNodata] none).toOption.isSome = true := by
  exact ⟨rfl, rfl⟩

/-- C7 amended: a missing nodata value with no mask value does not make
`valid_region` fail; the numpy comparison against the missing sentinel marks
every pixel valid, so such a raster's validity mask is identically true. -/
theorem C7_missing_nodata_no_error (fs : String → Raster) (path : String)
    (ms : List MeasurementDoc) (hne : ms ≠ [])
    (hb : ∀ m ∈ ms, (rasterOf fs path m).bandCount = 1) :
    (∃ res, valid_region fs path ms none = .ok res) ∧
    (∀ m : MeasurementDoc, (rasterOf fs path m).nodata = none →
      measMask fs path none m =
        (rasterOf fs path m).data.map (fun row => row.map (fun _ => true))) := by
  constructor
  · exact ⟨_, valid_region_ok_of fs path ms none hne hb⟩
  · intro m hnd
    simp [measMask, newMask, numpyNe, hnd]

/-- Witness for the amended C7 at a concrete nodata-free raster. -/
theorem C7_missing_nodata_no_error_witness :
    (valid_region fsNoNodata "/d" [mNoNodata] none).toOption.isSome = true ∧
    measMask fsNoNodata "/d" none mNoNodata = [[true, true]] := by
  have h := C7_missing_nodata_no_error fsNoNodata "/d" [mNoNodata]
    (by decide) (by decide)
  constructor
  · obtain ⟨res, hres⟩ := h.1
    rw [hres]
    rfl
  · rw [h.2 mNoNodata rfl]
    rfl

/-- Counterexample to C9 as stated: for a target path that merely shares
the dataset root as a string prefix (a sibling directory, not inside the
root), the code returns the offset unchanged, while the claim's rules
demand the joined path (the root is not tar-suffixed). -/
theorem C9_counterexample :
    resolve_absolute_offset "/data/scene" "b.tif" (some "/data/scene2/md.yaml") =
      "b.tif" ∧
    livesInsideSpec "/data/scene2/md.yaml" "/data/scene" = false ∧
    ".tar" ∉ pySuffixes "/data/scene" ∧
    resolve_absolute_offset "/data/scene" "b.tif" (some "/data/scene2/md.yaml") ≠
      pyJoin "/data/scene" "b.tif" := by
  refine ⟨by decide, by decide, by decide, by decide⟩

/-- C9 amended: the offset is returned unchanged whenever the target path's
string form starts with the dataset root's string form (which includes every
path truly inside the root, but also sibling paths extending the root's
name); otherwise a tar-suffixed root yields the archive locator
tar:root!offset, and any other root yields the plain joined path; in
particular root /data/scene.tar with offset bandA.tif resolves to
tar:/data/scene.tar!bandA.tif. -/
theorem C9_resolve_rules (dp off : String) (tp : Option String) :
    ((∃ t, tp = some t ∧ strStartsWith t dp = true) →
      resolve_absolute_offset dp off tp = off) ∧
    ((∀ t, tp = some t → strStartsWith t dp = false) → ".tar" ∈ pySuffixes dp →
      resolve_absolute_offset dp off tp = "tar:" ++ dp ++ "!" ++ off) ∧
    ((∀ t, tp = some t → strStartsWith t dp = false) → ".tar" ∉ pySuffixes dp →
      resolve_absolute_offset dp off tp = pyJoin dp off) ∧
    resolve_absolute_offset "/data/scene.tar" "bandA.tif" none =
      "tar:/data/scene.tar!bandA.tif" := by
  refine ⟨?_, ?_, ?_, by decide⟩
  · rintro ⟨t, rfl, hstarts⟩
    rw [resolve_absolute_offset]
    simp [hstarts]
  · intro hns htar
    cases tp with
    | none => rw [resolve_absolute_offset]; simp [htar]
    | some t => rw [resolve_absolute_offset]; simp [hns t rfl, htar]
  · intro hns htar
    cases tp with
    | none => rw [resolve_absolute_offset]; simp [htar]
    | some t => rw [resolve_absolute_offset]; simp [hns t rfl, htar]

/-- Witness for the amended C9 on all three rules. -/
theorem C9_resolve_rules_witness :
    resolve_absolute_offset "/data/scene" "b.tif" (some "/data/scene/ga-md.yaml") =
      "b.tif" ∧
    resolve_absolute_offset "/data/scene.tar" "bandA.tif" none =
      "tar:/data/scene.tar!bandA.tif" ∧
    resolve_absolute_offset "/data/scene" "b.tif" none = "/data/scene/b.tif" := by
  refine ⟨?_, ?_, ?_⟩
  · exact (C9_resolve_rules "/data/scene" "b.tif" (some "/data/scene/ga-md.yaml")).1
      ⟨_, rfl, by decide⟩
  · exact (C9_resolve_rules "/data/scene.tar" "bandA.tif" none).2.2.2
  · have h := (C9_resolve_rules "/data/scene" "b.tif" none).2.2.1
      (fun t ht => by cases ht) (by decide)
    rw [h]
    decide

/-! ## Claim theorems: the geometry pipeline -/

/-- Counterexample to C6 as stated: the buffer step of `valid_region` is
called with join style 3 and cap style 3, which in shapely are the bevel
join and the square cap, not the claimed mitred join (2) and flat cap (2). -/
theorem C6_counterexample :
    (geomOf (valid_region fsNoNodata "/d" [mNoNodata] none)).bind bufferParamsOf =
      some (1, 3, 3) ∧
    (3 : Nat) ≠ JOIN_STYLE_mitre ∧ (3 : Nat) ≠ CAP_STYLE_flat := by
  refine ⟨rfl, by decide, by decide⟩

/-- C6 amended: the convex hull of the unioned polygons is buffered outward
by exactly 1 pixel unit with shapely join style 3 (bevel) and cap style 3
(square) — still no rounding — and the buffered geometry is then simplified
with a tolerance of 1 pixel unit. -/
theorem C6_buffer_simplify_params (fs : String → Raster) (path : String)
    (ms : List MeasurementDoc) (mv : Option Int)
    (g : Geom) (grids : List (String × GridDoc)) (ms2 : List MeasurementDoc)
    (h : valid_region fs path ms mv = .ok (g, grids, ms2)) :
    ∃ masks x1 y1 a b d e xo yo,
      g = Geom.affineTransform
        (Geom.intersectBox
          (Geom.simplify
            (Geom.buffer (Geom.convexHull (Geom.vectorUnion masks)) 1
              JOIN_STYLE_bevel CAP_STYLE_square)
            1)
          0 0 x1 y1)
        a b d e xo yo := by
  obtain ⟨hne, hb, hres⟩ := valid_region_ok fs path ms mv _ h
  have hg : g = (finishRegion ms (List.foldl (stepState fs path mv) initState ms)).1 :=
    congrArg Prod.fst hres
  exact ⟨_, _, _, _, _, _, _, _, _, hg⟩

/-- Witness for the amended C6 at a concrete input. -/
theorem C6_buffer_simplify_params_witness :
    (geomOf (valid_region fsNoNodata "/d" [mNoNodata] none)).bind bufferParamsOf =
      some (1, JOIN_STYLE_bevel, CAP_STYLE_square) := by
  obtain ⟨⟨g, grids, ms2⟩, hr⟩ :
      ∃ x, valid_region fsNoNodata "/d" [mNoNodata] none = .ok x := ⟨_, rfl⟩
  obtain ⟨masks, x1, y1, a, b, d, e, xo, yo, hg⟩ :=
    C6_buffer_simplify_params fsNoNodata "/d" [mNoNodata] none g grids ms2 hr
  rw [hr]
  show bufferParamsOf g = some (1, JOIN_STYLE_bevel, CAP_STYLE_square)
  rw [hg]
  rfl

/-! ## Mask dimension lemmas -/

/-- Row count of an OR of same-height masks. -/
theorem rowsOf_maskOr (a b : Mask) (h : rowsOf a = rowsOf b) :
    rowsOf (maskOr a b) = rowsOf a := by
  simp only [rowsOf, maskOr, List.length_zipWith] at *
  omega

/-- Column count of an OR of same-width masks. -/
theorem colsOf_maskOr (a b : Mask) (h : colsOf a = colsOf b) :
    colsOf (maskOr a b) = colsOf a := by
  cases a with
  | nil => rfl
  | cons ra ta =>
    cases b with
    | nil => simp only [colsOf, maskOr, List.zipWith_nil_right] at *; omega
    | cons rb tb =>
      simp only [colsOf, maskOr, List.zipWith_cons_cons, List.headD_cons,
        List.length_zipWith] at *
      omega

/-- OR-folding masks of fixed dimensions keeps the dimensions. -/
theorem foldl_maskOr_dims (R C : Nat) :
    ∀ (t : List Mask) (acc : Mask), rowsOf acc = R → colsOf acc = C →
      (∀ x ∈ t, rowsOf x = R ∧ colsOf x = C) →
      rowsOf (t.foldl maskOr acc) = R ∧ colsOf (t.foldl maskOr acc) = C := by
  intro t
  induction t with
  | nil => intro acc hr hc _; exact ⟨hr, hc⟩
  | cons x xs ih =>
    intro acc hr hc hall
    rw [List.foldl_cons]
    obtain ⟨hxr, hxc⟩ := hall x (by simp)
    refine ih (maskOr acc x) ?_ ?_ (fun y hy => hall y (by simp [hy]))
    · rw [rowsOf_maskOr acc x (by rw [hr, hxr]), hr]
    · rw [colsOf_maskOr acc x (by rw [hc, hxc]), hc]

/-- Row count of a measurement's validity mask. -/
theorem measMask_rows (fs : String → Raster) (path : String) (mv : Option Int)
    (m : MeasurementDoc) :
    rowsOf (measMask fs path mv m) = (rasterOf fs path m).data.length := by
  cases mv <;> simp [measMask, newMask, rowsOf]

/-- Column count of a measurement's validity mask. -/
theorem measMask_cols (fs : String → Raster) (path : String) (mv : Option Int)
    (m : MeasurementDoc) :
    colsOf (measMask fs path mv m) = ((rasterOf fs path m).data.headD []).length := by
  cases mv <;> cases hd : (rasterOf fs path m).data <;>
    simp [measMask, newMask, colsOf, hd]

/-- Dimensions of a measurement's validity mask are those of its grid. -/
theorem measMask_dims_of_grid (fs : String → Raster) (path : String)
    (mv : Option Int) (m : MeasurementDoc) (g : GridDoc)
    (hgr : gridOf fs path m = g) :
    rowsOf (measMask fs path mv m) = g.shape.1 ∧
      colsOf (measMask fs path mv m) = g.shape.2 := by
  have hsh : (rasterOf fs path m).shape = g.shape := by
    rw [← hgr]
    rfl
  constructor
  · rw [measMask_rows]
    exact congrArg Prod.fst hsh
  · rw [measMask_cols]
    exact congrArg Prod.snd hsh

/-- Dimensions of an accumulated grid mask are those of the grid. -/
theorem accMaskOf_dims (fs : String → Raster) (path : String) (mv : Option Int)
    (ms : List MeasurementDoc) (g : GridDoc)
    (hne : membersOn fs path ms g ≠ []) :
    rowsOf (accMaskOf fs path mv ms g) = g.shape.1 ∧
      colsOf (accMaskOf fs path mv ms g) = g.shape.2 := by
  have hall : ∀ m ∈ membersOn fs path ms g,
      rowsOf (measMask fs path mv m) = g.shape.1 ∧
        colsOf (measMask fs path mv m) = g.shape.2 := by
    intro m hm
    exact measMask_dims_of_grid fs path mv m g
      ((mem_membersOn fs path ms g m).mp hm).2
  cases hmm : membersOn fs path ms g with
  | nil => exact absurd hmm hne
  | cons m0 t =>
    rw [accMaskOf, hmm, List.map_cons]
    have h0 := hall m0 (by rw [hmm]; simp)
    refine foldl_maskOr_dims g.shape.1 g.shape.2 (t.map (measMask fs path mv))
      (measMask fs path mv m0) h0.1 h0.2 ?_
    intro x hx
    rcases List.mem_map.mp hx with ⟨m1, hm1, rfl⟩
    exact hall m1 (by rw [hmm]; simp [hm1])

/-! ## Claim theorem: last-processed raster (C8) -/

/-- Geometry component of the finishing phase, written out. -/
theorem finishRegion_geom (ms : List MeasurementDoc) (st : LoopState) :
    (finishRegion ms st).1 =
      Geom.affineTransform
        (Geom.intersectBox
          (Geom.simplify
            (Geom.buffer
              (Geom.convexHull (Geom.vectorUnion (st.mask_by_grid.map (fun p => p.2))))
              1 3 3)
            1)
          0 0 (colsOf (st.mask.getD []) : Rat) (rowsOf (st.mask.getD []) : Rat))
        (st.transform.getD default).a (st.transform.getD default).b
        (st.transform.getD default).d (st.transform.getD default).e
        (st.transform.getD default).xoff (st.transform.getD default).yoff := rfl

/-- C8: after simplification the geometry is intersected with the pixel box
[0, width] by [0, height] of the last-processed raster and then mapped by
that same raster's affine transform, whose shapely coefficient list
(a, b, d, e, xoff, yoff) acts on a vertex as
x result = a x + b y + xoff and y result = d x + e y + yoff. -/
theorem C8_last_raster_box_transform (fs : String → Raster) (path : String)
    (ms : List MeasurementDoc) (mv : Option Int) (hne : ms ≠ [])
    (r : Raster) (hr : r = rasterOf fs path (ms.getLast hne))
    (g : Geom) (grids : List (String × GridDoc)) (ms2 : List MeasurementDoc)
    (h : valid_region fs path ms mv = .ok (g, grids, ms2)) :
    (∃ inner, g = Geom.affineTransform
        (Geom.intersectBox (Geom.simplify inner 1) 0 0
          (((r.data.headD []).length : Rat)) ((r.data.length : Rat)))
        r.transform.a r.transform.b r.transform.d r.transform.e
        r.transform.xoff r.transform.yoff) ∧
    (∀ x y : Rat,
      applyAffine r.transform.a r.transform.b r.transform.d r.transform.e
          r.transform.xoff r.transform.yoff x y =
        (r.transform.a * x + r.transform.b * y + r.transform.xoff,
         r.transform.d * x + r.transform.e * y + r.transform.yoff)) := by
  subst hr
  obtain ⟨hne2, hb, hres⟩ := valid_region_ok fs path ms mv _ h
  rw [foldl_stepState_eq] at hres
  have hg : g = (finishRegion ms (stateFor fs path mv ms)).1 := congrArg Prod.fst hres
  have hlast : ms.getLast? = some (ms.getLast hne) := List.getLast?_eq_getLast ms hne
  have hmaskfield : (stateFor fs path mv ms).mask =
      some (accMaskOf fs path mv ms (gridOf fs path (ms.getLast hne))) := by
    show ms.getLast?.map
        (fun m => accMaskOf fs path mv ms (gridOf fs path m)) = _
    rw [hlast, Option.map_some']
  have htrfield : (stateFor fs path mv ms).transform =
      some ((rasterOf fs path (ms.getLast hne)).transform) := by
    show ms.getLast?.map (fun m => (rasterOf fs path m).transform) = _
    rw [hlast, Option.map_some']
  have hmem : membersOn fs path ms (gridOf fs path (ms.getLast hne)) ≠ [] := by
    apply membersOn_ne_nil
    exact List.mem_map_of_mem (gridOf fs path) (List.getLast_mem hne)
  obtain ⟨hrows, hcols⟩ :=
    accMaskOf_dims fs path mv ms (gridOf fs path (ms.getLast hne)) hmem
  have hrows' : rowsOf (accMaskOf fs path mv ms (gridOf fs path (ms.getLast hne))) =
      (rasterOf fs path (ms.getLast hne)).data.length := hrows
  have hcols' : colsOf (accMaskOf fs path mv ms (gridOf fs path (ms.getLast hne))) =
      ((rasterOf fs path (ms.getLast hne)).data.headD []).length := hcols
  constructor
  · refine ⟨Geom.buffer
      (Geom.convexHull (Geom.vectorUnion
        ((stateFor fs path mv ms).mask_by_grid.map (fun p => p.2)))) 1 3 3, ?_⟩
    rw [hg, finishRegion_geom, hmaskfield, htrfield]
    rw [Option.getD_some, Option.getD_some, hrows', hcols']
  · exact fun x y => rfl

/-- Witness for C8: with two rasters on different grids, the box and the
transform coefficients come from the second (last-processed) raster. -/
theorem C8_last_raster_box_transform_witness :
    (geomOf (valid_region fsPair "/d" [mW1, mW2] none)).bind boxParamsOf =
      some (0, 0, 1, 1) ∧
    (geomOf (valid_region fsPair "/d" [mW1, mW2] none)).bind affineParamsOf =
      some (2, 0, 0, 3, 9, 7) := by
  obtain ⟨⟨g, grids, ms2⟩, hr⟩ :
      ∃ x, valid_region fsPair "/d" [mW1, mW2] none = .ok x := ⟨_, rfl⟩
  obtain ⟨⟨inner, hgeq⟩, _⟩ :=
    C8_last_raster_box_transform fsPair "/d" [mW1, mW2] none (by simp)
      (rasterOf fsPair "/d" ([mW1, mW2].getLast (by simp))) rfl g grids ms2 hr
  constructor
  · rw [hr]
    show boxParamsOf g = some (0, 0, 1, 1)
    rw [hgeq]
    rfl
  · rw [hr]
    show affineParamsOf g = some (2, 0, 0, 3, 9, 7)
    rw [hgeq]
    rfl

/-! ## Pointwise mask lemmas and OR accumulation (C3) -/

/-- Rectangular mask of the given dimensions. -/
def rectMask (mk : Mask) (R C : Nat) : Prop :=
  mk.length = R ∧ ∀ row ∈ mk, row.length = C

/-- Indexing with default into a zipWith, inside the bounds. -/
theorem getD_zipWith {α β γ : Type} (f : α → β → γ) :
    ∀ (l1 : List α) (l2 : List β) (i : Nat) (d1 : α) (d2 : β) (dg : γ),
      i < l1.length → i < l2.length →
      (List.zipWith f l1 l2).getD i dg = f (l1.getD i d1) (l2.getD i d2) := by
  intro l1
  induction l1 with
  | nil => intro l2 i d1 d2 dg h1 _; cases h1
  | cons a t1 ih =>
    intro l2 i d1 d2 dg h1 h2
    cases l2 with
    | nil => cases h2
    | cons b t2 =>
      cases i with
      | zero => rfl
      | succ k =>
        simp only [List.zipWith_cons_cons, List.getD_cons_succ]
        exact ih t2 k d1 d2 dg (Nat.lt_of_succ_lt_succ h1) (Nat.lt_of_succ_lt_succ h2)

/-- Indexing with default stays in the list, inside the bounds. -/
theorem getD_mem {α : Type} :
    ∀ (l : List α) (i : Nat) (d : α), i < l.length → l.getD i d ∈ l := by
  intro l
  induction l with
  | nil => intro i d h; cases h
  | cons a t ih =>
    intro i d h
    cases i with
    | zero => simp
    | succ k =>
      simp only [List.getD_cons_succ]
      exact List.mem_cons_of_mem a (ih k d (Nat.lt_of_succ_lt_succ h))

/-- Every element of a zipWith comes from the two lists. -/
theorem mem_zipWith {α β γ : Type} (f : α → β → γ) :
    ∀ {l1 : List α} {l2 : List β} {x : γ}, x ∈ List.zipWith f l1 l2 →
      ∃ a ∈ l1, ∃ b ∈ l2, x = f a b := by
  intro l1
  induction l1 with
  | nil => intro l2 x h; simp at h
  | cons a t1 ih =>
    intro l2 x h
    cases l2 with
    | nil => simp at h
    | cons b t2 =>
      rw [List.zipWith_cons_cons] at h
      rcases List.mem_cons.mp h with h | h
      · exact ⟨a, by simp, b, by simp, h⟩
      · rcases ih h with ⟨a1, ha1, b1, hb1, he⟩
        exact ⟨a1, by simp [ha1], b1, by simp [hb1], he⟩

/-- OR of rectangular masks is rectangular. -/
theorem rectMask_maskOr (a b : Mask) (R C : Nat)
    (ha : rectMask a R C) (hb : rectMask b R C) : rectMask (maskOr a b) R C := by
  constructor
  · rw [maskOr, List.length_zipWith, ha.1, hb.1, Nat.min_self]
  · intro row hrow
    have hrow2 : row ∈ List.zipWith
        (fun r1 r2 => List.zipWith (fun x y => x || y) r1 r2) a b := hrow
    rcases mem_zipWith _ hrow2 with ⟨ra, hra, rb, hrb, rfl⟩
    rw [List.length_zipWith, ha.2 ra hra, hb.2 rb hrb, Nat.min_self]

/-- Entry of an OR of rectangular masks, inside the bounds. -/
theorem getE_maskOr (a b : Mask) (R C : Nat)
    (ha : rectMask a R C) (hb : rectMask b R C) (i j : Nat)
    (hi : i < R) (hj : j < C) :
    Mask.getE (maskOr a b) i j = (Mask.getE a i j || Mask.getE b i j) := by
  have hia : i < a.length := ha.1 ▸ hi
  have hib : i < b.length := hb.1 ▸ hi
  have hrowa : (a.getD i []).length = C := ha.2 _ (getD_mem a i [] hia)
  have hrowb : (b.getD i []).length = C := hb.2 _ (getD_mem b i [] hib)
  have hout : (maskOr a b).getD i [] =
      List.zipWith (fun x y => x || y) (a.getD i []) (b.getD i []) :=
    getD_zipWith (fun r1 r2 => List.zipWith (fun x y => x || y) r1 r2)
      a b i [] [] [] hia hib
  show ((maskOr a b).getD i []).getD j false =
    (((a.getD i []).getD j false) || ((b.getD i []).getD j false))
  rw [hout]
  exact getD_zipWith (fun x y => x || y) _ _ j false false false
    (by rw [hrowa]; exact hj) (by rw [hrowb]; exact hj)

/-- Entry of an OR fold over rectangular masks, inside the bounds. -/
theorem foldl_maskOr_getE (R C i j : Nat) (hi : i < R) (hj : j < C) :
    ∀ (t : List Mask) (acc : Mask), rectMask acc R C →
      (∀ x ∈ t, rectMask x R C) →
      Mask.getE (t.foldl maskOr acc) i j =
        (Mask.getE acc i j || t.any (fun x => Mask.getE x i j)) := by
  intro t
  induction t with
  | nil => intro acc _ _; simp
  | cons x xs ih =>
    intro acc hacc hall
    rw [List.foldl_cons,
      ih (maskOr acc x) (rectMask_maskOr acc x R C hacc (hall x (by simp)))
        (fun y hy => hall y (by simp [hy])),
      getE_maskOr acc x R C hacc (hall x (by simp)) i j hi hj]
    simp [Bool.or_assoc]

/-- Validity mask of a measurement on a rectangular raster is rectangular
with its grid's dimensions. -/
theorem rectMask_measMask (fs : String → Raster) (path : String) (mv : Option Int)
    (m : MeasurementDoc) (gd : GridDoc)
    (hrect : ∀ row ∈ (rasterOf fs path m).data,
      row.length = ((rasterOf fs path m).data.headD []).length)
    (hgr : gridOf fs path m = gd) :
    rectMask (measMask fs path mv m) gd.shape.1 gd.shape.2 := by
  have hsh : (rasterOf fs path m).shape = gd.shape := by
    rw [← hgr]
    rfl
  have h1 : (rasterOf fs path m).data.length = gd.shape.1 := congrArg Prod.fst hsh
  have h2 : ((rasterOf fs path m).data.headD []).length = gd.shape.2 :=
    congrArg Prod.snd hsh
  constructor
  · rw [← h1]
    exact measMask_rows fs path mv m
  · intro row hrow
    cases mv with
    | none =>
      rcases List.mem_map.mp hrow with ⟨r0, hr0, rfl⟩
      rw [List.length_map, hrect r0 hr0, h2]
    | some v =>
      rcases List.mem_map.mp hrow with ⟨r0, hr0, rfl⟩
      rw [List.length_map, hrect r0 hr0, h2]

/-- Any-over-map reindexing for boolean predicates. -/
theorem any_map_eq {α β : Type} (f : α → β) (p : β → Bool) :
    ∀ l : List α, (l.map f).any p = l.any (fun x => p (f x)) := by
  intro l
  induction l with
  | nil => rfl
  | cons a t ih => simp only [List.map_cons, List.any_cons, ih]

/-- Entry of an accumulated grid mask is the OR over the members' masks. -/
theorem accMaskOf_getE (fs : String → Raster) (path : String) (mv : Option Int)
    (ms : List MeasurementDoc) (gd : GridDoc)
    (hrectall : ∀ m ∈ membersOn fs path ms gd,
      rectMask (measMask fs path mv m) gd.shape.1 gd.shape.2)
    (hne : membersOn fs path ms gd ≠ [])
    (i j : Nat) (hi : i < gd.shape.1) (hj : j < gd.shape.2) :
    Mask.getE (accMaskOf fs path mv ms gd) i j =
      (membersOn fs path ms gd).any
        (fun m => Mask.getE (measMask fs path mv m) i j) := by
  cases hmm : membersOn fs path ms gd with
  | nil => exact absurd hmm hne
  | cons m0 t =>
    rw [accMaskOf, hmm, List.map_cons]
    show Mask.getE
      ((t.map (measMask fs path mv)).foldl maskOr (measMask fs path mv m0)) i j = _
    rw [foldl_maskOr_getE gd.shape.1 gd.shape.2 i j hi hj
      (t.map (measMask fs path mv)) (measMask fs path mv m0)
      (hrectall m0 (by rw [hmm]; simp))
      (fun x hx => by
        rcases List.mem_map.mp hx with ⟨m1, hm1, rfl⟩
        exact hrectall m1 (by rw [hmm]; simp [hm1]))]
    rw [List.any_cons]
    congr 1
    exact any_map_eq (measMask fs path mv) (fun x => Mask.getE x i j) t

/-- C3: for every grid discovered during `valid_region`, the accumulated
per-grid mask (the one fed into vectorization) is the pointwise logical OR
of the validity masks of all measurements on that grid; hence a grid with
one fully true member mask has a fully true accumulated mask. -/
theorem C3_or_accumulation (fs : String → Raster) (path : String)
    (ms : List MeasurementDoc) (mv : Option Int)
    (hrect : ∀ m ∈ ms, ∀ row ∈ (rasterOf fs path m).data,
      row.length = ((rasterOf fs path m).data.headD []).length)
    (g : Geom) (grids : List (String × GridDoc)) (ms2 : List MeasurementDoc)
    (h : valid_region fs path ms mv = .ok (g, grids, ms2)) :
    g.unionMasks = (inputGrids fs path ms).map (accMaskOf fs path mv ms) ∧
    (∀ gd ∈ inputGrids fs path ms, ∀ i j, i < gd.shape.1 → j < gd.shape.2 →
      Mask.getE (accMaskOf fs path mv ms gd) i j =
        (membersOn fs path ms gd).any
          (fun m => Mask.getE (measMask fs path mv m) i j)) ∧
    (∀ gd ∈ inputGrids fs path ms,
      (∃ m ∈ membersOn fs path ms gd, ∀ i j, i < gd.shape.1 → j < gd.shape.2 →
        Mask.getE (measMask fs path mv m) i j = true) →
      ∀ i j, i < gd.shape.1 → j < gd.shape.2 →
        Mask.getE (accMaskOf fs path mv ms gd) i j = true) := by
  obtain ⟨hne, hb, hres⟩ := valid_region_ok fs path ms mv _ h
  rw [foldl_stepState_eq] at hres
  have hg : g = (finishRegion ms (stateFor fs path mv ms)).1 := congrArg Prod.fst hres
  have hrectall : ∀ gd, ∀ m ∈ membersOn fs path ms gd,
      rectMask (measMask fs path mv m) gd.shape.1 gd.shape.2 := by
    intro gd m hm
    obtain ⟨hms, hgr⟩ := (mem_membersOn fs path ms gd m).mp hm
    exact rectMask_measMask fs path mv m gd (hrect m hms) hgr
  have hne2 : ∀ gd ∈ inputGrids fs path ms, membersOn fs path ms gd ≠ [] := by
    intro gd hgd
    exact membersOn_ne_nil fs path ms gd ((mem_firstOcc _ _).mp hgd)
  refine ⟨?_, ?_, ?_⟩
  · rw [hg]
    show ((inputGrids fs path ms).map
      (fun gd => (gd, accMaskOf fs path mv ms gd))).map (fun p => p.2) =
      (inputGrids fs path ms).map (accMaskOf fs path mv ms)
    rw [List.map_map]
    rfl
  · intro gd hgd i j hi hj
    exact accMaskOf_getE fs path mv ms gd (hrectall gd) (hne2 gd hgd) i j hi hj
  · rintro gd hgd ⟨m, hm, hall⟩ i j hi hj
    rw [accMaskOf_getE fs path mv ms gd (hrectall gd) (hne2 gd hgd) i j hi hj]
    rw [List.any_eq_true]
    exact ⟨m, hm, hall i j hi hj⟩

/-- Witness for C3: two rasters on one grid, the first invalid at (0, 0),
the second fully valid; the accumulated mask is true at (0, 0). -/
theorem C3_or_accumulation_witness :
    Mask.getE (accMaskOf fsOrMask "/d" none [mZ1, mZ2]
      (gridOf fsOrMask "/d" mZ1)) 0 0 = true := by
  obtain ⟨⟨g, grids, ms2⟩, hr⟩ :
      ∃ x, valid_region fsOrMask "/d" [mZ1, mZ2] none = .ok x := ⟨_, rfl⟩
  have h3 := C3_or_accumulation fsOrMask "/d" [mZ1, mZ2] none (by decide)
    g grids ms2 hr
  have hpt := h3.2.1 (gridOf fsOrMask "/d" mZ1) (by decide) 0 0 (by decide) (by decide)
  rw [hpt]
  decide

/-! ## Sorted groups and grid naming (C1, C10) -/

/-- Keys of the grouped measurements are the distinct grids. -/
theorem groupsOf_keys (fs : String → Raster) (path : String)
    (ms : List MeasurementDoc) :
    (groupsOf fs path ms).map Prod.fst = inputGrids fs path ms := by
  rw [groupsOf, List.map_map]
  exact List.map_id (inputGrids fs path ms)

/-- Shape of a group entry. -/
theorem mem_groupsOf (fs : String → Raster) (path : String)
    (ms : List MeasurementDoc) (p : GridDoc × List MeasurementDoc)
    (hp : p ∈ groupsOf fs path ms) :
    p.1 ∈ inputGrids fs path ms ∧ p = (p.1, membersOn fs path ms p.1) := by
  rcases List.mem_map.mp hp with ⟨g, hg, rfl⟩
  exact ⟨hg, rfl⟩

/-- The sort is a permutation of the groups. -/
theorem sortedGroups_perm (fs : String → Raster) (path : String)
    (ms : List MeasurementDoc) :
    (sortedGroups fs path ms).Perm (groupsOf fs path ms) :=
  List.perm_insertionSort leByCount (groupsOf fs path ms)

/-- The sort is ascending by member count. -/
theorem sortedGroups_sorted (fs : String → Raster) (path : String)
    (ms : List MeasurementDoc) :
    List.Sorted leByCount (sortedGroups fs path ms) :=
  List.sorted_insertionSort leByCount (groupsOf fs path ms)

/-- Shape of a sorted group entry. -/
theorem mem_sortedGroups (fs : String → Raster) (path : String)
    (ms : List MeasurementDoc) (p : GridDoc × List MeasurementDoc)
    (hp : p ∈ sortedGroups fs path ms) :
    p.1 ∈ inputGrids fs path ms ∧ p = (p.1, membersOn fs path ms p.1) :=
  mem_groupsOf fs path ms p ((sortedGroups_perm fs path ms).mem_iff.mp hp)

/-- Keys of the sorted groups have no duplicates. -/
theorem sortedGroups_keys_nodup (fs : String → Raster) (path : String)
    (ms : List MeasurementDoc) :
    ((sortedGroups fs path ms).map Prod.fst).Nodup := by
  have hperm := (sortedGroups_perm fs path ms).map Prod.fst
  rw [hperm.nodup_iff, groupsOf_keys]
  exact nodup_firstOcc _

/-- A nonempty measurement list has nonempty sorted groups. -/
theorem sortedGroups_ne_nil (fs : String → Raster) (path : String)
    (ms : List MeasurementDoc) (hne : ms ≠ []) :
    sortedGroups fs path ms ≠ [] := by
  obtain ⟨m, hm⟩ := List.exists_mem_of_ne_nil ms hne
  have hg : gridOf fs path m ∈ inputGrids fs path ms :=
    (mem_firstOcc _ _).mpr (List.mem_map_of_mem (gridOf fs path) hm)
  have hgrp : (gridOf fs path m, membersOn fs path ms (gridOf fs path m)) ∈
      groupsOf fs path ms := List.mem_map_of_mem _ hg
  intro hnil
  have := (sortedGroups_perm fs path ms).mem_iff.mpr hgrp
  rw [hnil] at this
  cases this

/-- In an ascending list, every entry before the last is at most the last. -/
theorem sorted_dropLast_le (S : List (GridDoc × List MeasurementDoc))
    (hS : S ≠ []) (hsort : List.Sorted leByCount S) :
    ∀ p ∈ S.dropLast, leByCount p (S.getLast hS) := by
  intro p hp
  have hsplit := List.dropLast_append_getLast hS
  have hpair : List.Pairwise leByCount (S.dropLast ++ [S.getLast hS]) := by
    rw [hsplit]
    exact hsort
  exact (List.pairwise_append.mp hpair).2.2 p hp (S.getLast hS) (by simp)

/-- With a strict-majority grid, the last sorted group is that grid's. -/
theorem getLast_sortedGroups_of_max (fs : String → Raster) (path : String)
    (ms : List MeasurementDoc) (gstar : GridDoc)
    (hg : gstar ∈ inputGrids fs path ms)
    (hmax : ∀ g' ∈ inputGrids fs path ms, g' ≠ gstar →
      (membersOn fs path ms g').length < (membersOn fs path ms gstar).length)
    (hS : sortedGroups fs path ms ≠ []) :
    (sortedGroups fs path ms).getLast hS = (gstar, membersOn fs path ms gstar) := by
  have hlastmem := List.getLast_mem hS
  obtain ⟨hkey, hshape⟩ := mem_sortedGroups fs path ms _ hlastmem
  by_cases heq : ((sortedGroups fs path ms).getLast hS).1 = gstar
  · rw [hshape, heq]
  · exfalso
    have hgs_mem : (gstar, membersOn fs path ms gstar) ∈ sortedGroups fs path ms :=
      (sortedGroups_perm fs path ms).mem_iff.mpr (List.mem_map_of_mem _ hg)
    have hneq : (gstar, membersOn fs path ms gstar) ≠
        (sortedGroups fs path ms).getLast hS := by
      intro he
      exact heq (by rw [← he])
    have hdl : (gstar, membersOn fs path ms gstar) ∈
        (sortedGroups fs path ms).dropLast := by
      have hsplit := List.dropLast_append_getLast hS
      rw [← hsplit] at hgs_mem
      rcases List.mem_append.mp hgs_mem with h | h
      · exact h
      · exact absurd (List.mem_singleton.mp h) hneq
    have hle := sorted_dropLast_le (sortedGroups fs path ms) hS
      (sortedGroups_sorted fs path ms) _ hdl
    have hle2 : (membersOn fs path ms gstar).length ≤
        ((sortedGroups fs path ms).getLast hS).2.length := hle
    have h2 : ((sortedGroups fs path ms).getLast hS).2 =
        membersOn fs path ms ((sortedGroups fs path ms).getLast hS).1 :=
      congrArg Prod.snd hshape
    have hlt := hmax _ hkey heq
    rw [h2] at hle2
    omega

/-- The named groups of a nonempty sorted list, written out. -/
theorem namedGroups_eq (S : List (GridDoc × List MeasurementDoc)) (hS : S ≠ []) :
    namedGroups S =
      ("default", (S.getLast hS).1, (S.getLast hS).2) ::
        S.dropLast.map (fun p => (joinNames p.2, p.1, p.2)) := by
  rw [namedGroups, List.getLast?_eq_getLast S hS]

/-- The name a measurement receives comes from a group containing it. -/
theorem assignedName_mem_names
    (L : List (String × GridDoc × List MeasurementDoc)) (m : MeasurementDoc)
    (h : ∃ e ∈ L, m ∈ e.2.2) :
    assignedName L m ∈ L.map (fun e => e.1) := by
  induction L with
  | nil => rcases h with ⟨e, he, _⟩; cases he
  | cons e0 rest ih =>
    rw [assignedName]
    by_cases h0 : m ∈ e0.2.2
    · rw [if_pos h0]
      simp
    · rw [if_neg h0]
      rcases h with ⟨e, he, hme⟩
      rcases List.mem_cons.mp he with rfl | he
      · exact absurd hme h0
      · exact List.mem_cons_of_mem _ (ih ⟨e, he, hme⟩)

/-- When every group containing a measurement carries the same name, that
name is assigned. -/
theorem assignedName_unique
    (L : List (String × GridDoc × List MeasurementDoc)) (m : MeasurementDoc)
    (n0 : String)
    (hex : ∃ e ∈ L, m ∈ e.2.2 ∧ e.1 = n0)
    (huniq : ∀ e ∈ L, m ∈ e.2.2 → e.1 = n0) :
    assignedName L m = n0 := by
  induction L with
  | nil => rcases hex with ⟨e, he, _⟩; cases he
  | cons e0 rest ih =>
    rw [assignedName]
    by_cases h0 : m ∈ e0.2.2
    · rw [if_pos h0]
      exact huniq e0 (by simp) h0
    · rw [if_neg h0]
      rcases hex with ⟨e, he, hme, hn⟩
      rcases List.mem_cons.mp he with rfl | he
      · exact absurd hme h0
      · exact ih ⟨e, he, hme, hn⟩ (fun e1 he1 hme1 =>
          huniq e1 (List.mem_cons_of_mem _ he1) hme1)

/-- Keys after one dict insertion. -/
theorem map_fst_pyDictInsert (l : List (String × GridDoc)) (k : String) (v : GridDoc) :
    (pyDictInsert l k v).map Prod.fst =
      if k ∈ l.map Prod.fst then l.map Prod.fst else l.map Prod.fst ++ [k] := by
  rw [pyDictInsert]
  by_cases hk : k ∈ l.map Prod.fst
  · rw [if_pos hk, if_pos hk, List.map_map]
    apply List.map_congr_left
    intro p _
    by_cases hpk : p.1 = k
    · simp [hpk]
    · simp [hpk]
  · rw [if_neg hk, if_neg hk, List.map_append]
    rfl

/-- A key of the pair list or of the accumulator survives the dict fold. -/
theorem pyDict_go_keys :
    ∀ (ps : List (String × GridDoc)) (acc : List (String × GridDoc)) (k : String),
      (k ∈ acc.map Prod.fst ∨ k ∈ ps.map Prod.fst) →
      k ∈ (ps.foldl (fun acc p => pyDictInsert acc p.1 p.2) acc).map Prod.fst := by
  intro ps
  induction ps with
  | nil =>
    intro acc k h
    rcases h with h | h
    · exact h
    · exact absurd h (List.not_mem_nil k)
  | cons p t ih =>
    intro acc k h
    rw [List.foldl_cons]
    apply ih
    rcases h with h | h
    · left
      rw [map_fst_pyDictInsert]
      by_cases hk : p.1 ∈ acc.map Prod.fst
      · rw [if_pos hk]; exact h
      · rw [if_neg hk]; exact List.mem_append_left _ h
    · rw [List.map_cons] at h
      rcases List.mem_cons.mp h with rfl | h
      · left
        rw [map_fst_pyDictInsert]
        by_cases hk : p.1 ∈ acc.map Prod.fst
        · rw [if_pos hk]; exact hk
        · rw [if_neg hk]; exact List.mem_append_right _ (by simp)
      · right
        exact h

/-- Every key of the pair list is a key of the Python dict built from it. -/
theorem pyDict_keys_mem (ps : List (String × GridDoc)) (k : String)
    (h : k ∈ ps.map Prod.fst) : k ∈ (pyDict ps).map Prod.fst :=
  pyDict_go_keys ps [] k (.inr h)

/-- Folding dict insertion over fresh, duplicate-free keys appends. -/
theorem pyDict_go_eq :
    ∀ (ps : List (String × GridDoc)) (acc : List (String × GridDoc)),
      (∀ k ∈ ps.map Prod.fst, k ∉ acc.map Prod.fst) →
      (ps.map Prod.fst).Nodup →
      ps.foldl (fun acc p => pyDictInsert acc p.1 p.2) acc = acc ++ ps := by
  intro ps
  induction ps with
  | nil => intro acc _ _; simp
  | cons p t ih =>
    intro acc hfresh hnd
    rw [List.foldl_cons]
    have hp : p.1 ∉ acc.map Prod.fst := hfresh p.1 (by simp)
    have hins : pyDictInsert acc p.1 p.2 = acc ++ [p] := by
      rw [pyDictInsert, if_neg hp]
    rw [hins, ih (acc ++ [p]) ?_ ?_]
    · rw [List.append_assoc]
      rfl
    · intro k hk
      rw [List.map_append, List.mem_append]
      rintro (h | h)
      · exact hfresh k (by simp [hk]) h
      · rw [List.map_cons] at hnd
        rcases List.mem_singleton.mp (by simpa using h) with rfl
        exact (List.nodup_cons.mp hnd).1 hk
    · rw [List.map_cons] at hnd
      exact (List.nodup_cons.mp hnd).2

/-- A Python dict over duplicate-free keys is the pair list itself. -/
theorem pyDict_eq_self (ps : List (String × GridDoc))
    (h : (ps.map Prod.fst).Nodup) : pyDict ps = ps := by
  rw [pyDict, pyDict_go_eq ps [] (fun k _ hk => List.not_mem_nil k hk) h]
  rfl

/-- C1: measurements are grouped by identical grid; the groups are sorted
ascending by member count; the group with the most members is named
"default"; every other group is named by joining its member names with an
underscore in supplied order; each measurement's grid field becomes its
group's name; and (being stated for arbitrary input order) the majority
grid is "default" regardless of the order the measurements were supplied
in. -/
theorem C1_grid_naming (fs : String → Raster) (path : String)
    (ms : List MeasurementDoc) (mv : Option Int) (gstar : GridDoc)
    (hg : gstar ∈ inputGrids fs path ms)
    (hmax : ∀ g' ∈ inputGrids fs path ms, g' ≠ gstar →
      (membersOn fs path ms g').length < (membersOn fs path ms gstar).length)
    (hnn : ("default" :: ((inputGrids fs path ms).filter (· ≠ gstar)).map
      (fun gg => joinNames (membersOn fs path ms gg))).Nodup)
    (g : Geom) (grids : List (String × GridDoc)) (ms2 : List MeasurementDoc)
    (h : valid_region fs path ms mv = .ok (g, grids, ms2)) :
    ms2 = ms.map (fun m => { m with grid :=
      (if gridOf fs path m = gstar then "default"
       else joinNames (membersOn fs path ms (gridOf fs path m))) }) ∧
    ∃ og : List GridDoc,
      og.Perm ((inputGrids fs path ms).filter (· ≠ gstar)) ∧
      grids = ("default", gstar) ::
        og.map (fun gg => (joinNames (membersOn fs path ms gg), gg)) ∧
      List.Sorted (fun a b => a ≤ b)
        (og.map (fun gg => (membersOn fs path ms gg).length)) := by
  obtain ⟨hne, hb, hres⟩ := valid_region_ok fs path ms mv _ h
  rw [foldl_stepState_eq] at hres
  have hms2 : ms2 = ms.map (fun m =>
      { m with grid := assignedName (namedGroups (sortedGroups fs path ms)) m }) :=
    congrArg (fun r => r.2.2) hres
  have hgrids : grids = pyDict ((namedGroups (sortedGroups fs path ms)).map
      (fun e => (e.1, e.2.1))) :=
    congrArg (fun r => r.2.1) hres
  have hS : sortedGroups fs path ms ≠ [] := sortedGroups_ne_nil fs path ms hne
  have hlast := getLast_sortedGroups_of_max fs path ms gstar hg hmax hS
  have hngs : namedGroups (sortedGroups fs path ms) =
      ("default", gstar, membersOn fs path ms gstar) ::
        (sortedGroups fs path ms).dropLast.map
          (fun p => (joinNames p.2, p.1, p.2)) := by
    rw [namedGroups_eq (sortedGroups fs path ms) hS, hlast]
  have hsplit : sortedGroups fs path ms =
      (sortedGroups fs path ms).dropLast ++ [(gstar, membersOn fs path ms gstar)] := by
    rw [← hlast]
    exact (List.dropLast_append_getLast hS).symm
  have hDLshape : ∀ p ∈ (sortedGroups fs path ms).dropLast,
      p.1 ∈ inputGrids fs path ms ∧ p = (p.1, membersOn fs path ms p.1) := by
    intro p hp
    apply mem_sortedGroups fs path ms p
    rw [hsplit]
    exact List.mem_append_left _ hp
  have hDLkey_ne : ∀ p ∈ (sortedGroups fs path ms).dropLast, p.1 ≠ gstar := by
    have hkeys := sortedGroups_keys_nodup fs path ms
    rw [hsplit, List.map_append] at hkeys
    have hnotin : gstar ∉ ((sortedGroups fs path ms).dropLast).map Prod.fst := by
      simp only [List.nodup_append, List.disjoint_singleton] at hkeys
      simpa using hkeys.2.2
    intro p hp he
    exact hnotin (he ▸ List.mem_map_of_mem Prod.fst hp)
  have hstar_iff : ∀ m ∈ ms,
      (m ∈ membersOn fs path ms gstar ↔ gridOf fs path m = gstar) := by
    intro m hm
    rw [mem_membersOn]
    exact ⟨fun hh => hh.2, fun hh => ⟨hm, hh⟩⟩
  constructor
  · rw [hms2]
    apply List.map_congr_left
    intro m hm
    have hname : assignedName (namedGroups (sortedGroups fs path ms)) m =
        if gridOf fs path m = gstar then "default"
        else joinNames (membersOn fs path ms (gridOf fs path m)) := by
      by_cases he : gridOf fs path m = gstar
      · rw [if_pos he, hngs, assignedName, if_pos ((hstar_iff m hm).mpr he)]
      · rw [if_neg he, hngs, assignedName,
          if_neg (fun hmem => he ((hstar_iff m hm).mp hmem))]
        have hgm : gridOf fs path m ∈ inputGrids fs path ms :=
          (mem_firstOcc _ _).mpr (List.mem_map_of_mem (gridOf fs path) hm)
        have hpS : (gridOf fs path m, membersOn fs path ms (gridOf fs path m)) ∈
            sortedGroups fs path ms :=
          (sortedGroups_perm fs path ms).mem_iff.mpr (List.mem_map_of_mem _ hgm)
        have hpDL : (gridOf fs path m, membersOn fs path ms (gridOf fs path m)) ∈
            (sortedGroups fs path ms).dropLast := by
          rw [hsplit] at hpS
          rcases List.mem_append.mp hpS with hh | hh
          · exact hh
          · exfalso
            exact he (congrArg Prod.fst (List.mem_singleton.mp hh))
        apply assignedName_unique
        · refine ⟨(joinNames (membersOn fs path ms (gridOf fs path m)),
            gridOf fs path m, membersOn fs path ms (gridOf fs path m)),
            List.mem_map_of_mem _ hpDL, ?_, rfl⟩
          exact (mem_membersOn fs path ms _ m).mpr ⟨hm, rfl⟩
        · intro e he1 hme
          rcases List.mem_map.mp he1 with ⟨p, hp, rfl⟩
          obtain ⟨hpIG, hpshape⟩ := hDLshape p hp
          have hp2 : p.2 = membersOn fs path ms p.1 := congrArg Prod.snd hpshape
          have hmp : m ∈ membersOn fs path ms p.1 := hp2 ▸ hme
          have hgp : gridOf fs path m = p.1 :=
            ((mem_membersOn fs path ms p.1 m).mp hmp).2
          show joinNames p.2 = joinNames (membersOn fs path ms (gridOf fs path m))
          rw [hp2, hgp]
    rw [hname]
  · have hkeys_split : (sortedGroups fs path ms).map Prod.fst =
        ((sortedGroups fs path ms).dropLast).map Prod.fst ++ [gstar] := by
      conv_lhs => rw [hsplit]
      rw [List.map_append]
      rfl
    have hkeysperm : (gstar :: ((sortedGroups fs path ms).dropLast).map Prod.fst).Perm
        (inputGrids fs path ms) := by
      have h1 : ((sortedGroups fs path ms).map Prod.fst).Perm (inputGrids fs path ms) := by
        have hh := (sortedGroups_perm fs path ms).map Prod.fst
        rw [groupsOf_keys] at hh
        exact hh
      have h2 := (List.perm_append_singleton gstar
        (((sortedGroups fs path ms).dropLast).map Prod.fst)).symm
      rw [← hkeys_split] at h2
      exact h2.trans h1
    have hcons_erase : (inputGrids fs path ms).Perm
        (gstar :: (inputGrids fs path ms).erase gstar) :=
      List.perm_cons_erase hg
    have hogperm : ((((sortedGroups fs path ms).dropLast)).map Prod.fst).Perm
        ((inputGrids fs path ms).erase gstar) :=
      (hkeysperm.trans hcons_erase).cons_inv
    have hfilter : (inputGrids fs path ms).erase gstar =
        (inputGrids fs path ms).filter (· ≠ gstar) := by
      have h1 : (inputGrids fs path ms).erase gstar =
          (inputGrids fs path ms).filter (· != gstar) :=
        (nodup_firstOcc (ms.map (gridOf fs path))).erase_eq_filter gstar
      rw [h1]
      exact List.filter_congr (fun x _ => by by_cases hx : x = gstar <;> simp [hx])
    have hogfilter : ((((sortedGroups fs path ms).dropLast)).map Prod.fst).Perm
        ((inputGrids fs path ms).filter (· ≠ gstar)) := hfilter ▸ hogperm
    refine ⟨((sortedGroups fs path ms).dropLast).map Prod.fst, hogfilter, ?_, ?_⟩
    · rw [hgrids, hngs]
      have hpairs : ((("default", gstar, membersOn fs path ms gstar) ::
          (sortedGroups fs path ms).dropLast.map
            (fun p => (joinNames p.2, p.1, p.2))).map (fun e => (e.1, e.2.1))) =
          ("default", gstar) ::
            (((sortedGroups fs path ms).dropLast).map Prod.fst).map
              (fun gg => (joinNames (membersOn fs path ms gg), gg)) := by
        rw [List.map_cons]
        congr 1
        rw [List.map_map, List.map_map]
        apply List.map_congr_left
        intro p hp
        obtain ⟨_, hpshape⟩ := hDLshape p hp
        have hp2 : p.2 = membersOn fs path ms p.1 := congrArg Prod.snd hpshape
        show (joinNames p.2, p.1) = (joinNames (membersOn fs path ms p.1), p.1)
        rw [hp2]
      rw [hpairs]
      apply pyDict_eq_self
      rw [List.map_cons, List.map_map]
      show ("default" :: (((sortedGroups fs path ms).dropLast).map Prod.fst).map
        (fun gg => joinNames (membersOn fs path ms gg))).Nodup
      exact ((hogfilter.map
        (fun gg => joinNames (membersOn fs path ms gg))).cons "default").nodup_iff.mpr hnn
    · have hsubl : List.Sublist ((sortedGroups fs path ms).dropLast)
          (sortedGroups fs path ms) := by
        conv_rhs => rw [hsplit]
        exact List.sublist_append_left _ _
      have hpwDL : List.Pairwise leByCount ((sortedGroups fs path ms).dropLast) :=
        List.Pairwise.sublist hsubl (sortedGroups_sorted fs path ms)
      have hmapeq : ((((sortedGroups fs path ms).dropLast).map Prod.fst).map
          (fun gg => (membersOn fs path ms gg).length)) =
          ((sortedGroups fs path ms).dropLast).map (fun p => p.2.length) := by
        rw [List.map_map]
        apply List.map_congr_left
        intro p hp
        obtain ⟨_, hpshape⟩ := hDLshape p hp
        show (membersOn fs path ms p.1).length = p.2.length
        rw [congrArg Prod.snd hpshape]
      rw [hmapeq]
      show List.Pairwise (fun a b => a ≤ b)
        (((sortedGroups fs path ms).dropLast).map (fun p => p.2.length))
      rw [List.pairwise_map]
      exact hpwDL

/-- Witness for C1: two grids, majority grid first or last in the input;
in both orders the majority grid is named "default" and the other grid is
named after its single member "blue". -/
theorem C1_grid_naming_witness :
    (valid_region fsGrids "/d" [mRed, mGreen, mBlue] none).map
        (fun r => (r.2.1.map Prod.fst, r.2.2.map (fun m => m.grid))) =
      .ok (["default", "blue"], ["default", "default", "blue"]) ∧
    (valid_region fsGrids "/d" [mBlue, mRed, mGreen] none).map
        (fun r => (r.2.1.map Prod.fst, r.2.2.map (fun m => m.grid))) =
      .ok (["default", "blue"], ["blue", "default", "default"]) := by
  constructor
  · obtain ⟨⟨g1, grids1, ms21⟩, hr1⟩ :
        ∃ x, valid_region fsGrids "/d" [mRed, mGreen, mBlue] none = .ok x := ⟨_, rfl⟩
    obtain ⟨hms2, og, hperm, hgr, _⟩ :=
      C1_grid_naming fsGrids "/d" [mRed, mGreen, mBlue] none
        (gridOf fsGrids "/d" mRed) (by decide) (by decide) (by decide)
        g1 grids1 ms21 hr1
    have hfe : (inputGrids fsGrids "/d" [mRed, mGreen, mBlue]).filter
        (· ≠ gridOf fsGrids "/d" mRed) = [gridOf fsGrids "/d" mBlue] := by decide
    rw [hfe] at hperm
    have hog := List.perm_singleton.mp hperm
    rw [hr1]
    simp only [Except.map]
    rw [hgr, hog, hms2]
    rfl
  · obtain ⟨⟨g2, grids2, ms22⟩, hr2⟩ :
        ∃ x, valid_region fsGrids "/d" [mBlue, mRed, mGreen] none = .ok x := ⟨_, rfl⟩
    obtain ⟨hms2, og, hperm, hgr, _⟩ :=
      C1_grid_naming fsGrids "/d" [mBlue, mRed, mGreen] none
        (gridOf fsGrids "/d" mRed) (by decide) (by decide) (by decide)
        g2 grids2 ms22 hr2
    have hfe : (inputGrids fsGrids "/d" [mBlue, mRed, mGreen]).filter
        (· ≠ gridOf fsGrids "/d" mRed) = [gridOf fsGrids "/d" mBlue] := by decide
    rw [hfe] at hperm
    have hog := List.perm_singleton.mp hperm
    rw [hr2]
    simp only [Except.map]
    rw [hgr, hog, hms2]
    rfl

/-- C10: on success, every measurement's assigned grid field is a key of
the returned grid mapping, including when joined names collide and the
mapping has fewer entries than distinct grids. -/
theorem C10_assigned_names_are_keys (fs : String → Raster) (path : String)
    (ms : List MeasurementDoc) (mv : Option Int)
    (g : Geom) (grids : List (String × GridDoc)) (ms2 : List MeasurementDoc)
    (h : valid_region fs path ms mv = .ok (g, grids, ms2)) :
    ∀ m2 ∈ ms2, m2.grid ∈ grids.map Prod.fst := by
  obtain ⟨hne, hb, hres⟩ := valid_region_ok fs path ms mv _ h
  rw [foldl_stepState_eq] at hres
  have hms2 : ms2 = ms.map (fun m =>
      { m with grid := assignedName (namedGroups (sortedGroups fs path ms)) m }) :=
    congrArg (fun r => r.2.2) hres
  have hgrids : grids = pyDict ((namedGroups (sortedGroups fs path ms)).map
      (fun e => (e.1, e.2.1))) :=
    congrArg (fun r => r.2.1) hres
  have hS : sortedGroups fs path ms ≠ [] := sortedGroups_ne_nil fs path ms hne
  have hngs := namedGroups_eq (sortedGroups fs path ms) hS
  intro m2 hm2
  rw [hms2] at hm2
  rcases List.mem_map.mp hm2 with ⟨m, hm, rfl⟩
  show assignedName (namedGroups (sortedGroups fs path ms)) m ∈ grids.map Prod.fst
  have hgm : gridOf fs path m ∈ inputGrids fs path ms :=
    (mem_firstOcc _ _).mpr (List.mem_map_of_mem (gridOf fs path) hm)
  have hpS : (gridOf fs path m, membersOn fs path ms (gridOf fs path m)) ∈
      sortedGroups fs path ms :=
    (sortedGroups_perm fs path ms).mem_iff.mpr (List.mem_map_of_mem _ hgm)
  have hmm : m ∈ membersOn fs path ms (gridOf fs path m) :=
    (mem_membersOn fs path ms _ m).mpr ⟨hm, rfl⟩
  have hex : ∃ e ∈ namedGroups (sortedGroups fs path ms), m ∈ e.2.2 := by
    rw [hngs]
    have hsplit := List.dropLast_append_getLast hS
    rw [← hsplit] at hpS
    rcases List.mem_append.mp hpS with hdl | hlst
    · exact ⟨(joinNames (membersOn fs path ms (gridOf fs path m)),
        gridOf fs path m, membersOn fs path ms (gridOf fs path m)),
        List.mem_cons_of_mem _ (List.mem_map_of_mem _ hdl), hmm⟩
    · have he := List.mem_singleton.mp hlst
      refine ⟨("default", ((sortedGroups fs path ms).getLast hS).1,
        ((sortedGroups fs path ms).getLast hS).2), by simp, ?_⟩
      show m ∈ ((sortedGroups fs path ms).getLast hS).2
      rw [← he]
      exact hmm
  have hnames := assignedName_mem_names _ m hex
  rw [hgrids]
  apply pyDict_keys_mem
  have hkeys : ((namedGroups (sortedGroups fs path ms)).map
      (fun e => (e.1, e.2.1))).map Prod.fst =
      (namedGroups (sortedGroups fs path ms)).map (fun e => e.1) := by
    rw [List.map_map]
    rfl
  rw [hkeys]
  exact hnames

/-- Witness for C10 on the name-collision scenario: three grids, the two
non-default groups both named x_y, so the dict has two keys; every
measurement's grid field is still a key, and the mapping has fewer entries
than distinct grids. -/
theorem C10_assigned_names_are_keys_witness :
    (valid_region fsCollide "/d" [mP, mQ, mR, mX, mY, mXY] none).map
        (fun r => r.2.2.all (fun m2 => decide (m2.grid ∈ r.2.1.map Prod.fst))) =
      .ok true ∧
    (valid_region fsCollide "/d" [mP, mQ, mR, mX, mY, mXY] none).map
        (fun r => r.2.1.map Prod.fst) = .ok ["default", "x_y"] ∧
    (inputGrids fsCollide "/d" [mP, mQ, mR, mX, mY, mXY]).length = 3 := by
  obtain ⟨⟨g, grids, ms2⟩, hr⟩ :
      ∃ x, valid_region fsCollide "/d" [mP, mQ, mR, mX, mY, mXY] none = .ok x :=
    ⟨_, rfl⟩
  have h10 := C10_assigned_names_are_keys fsCollide "/d"
    [mP, mQ, mR, mX, mY, mXY] none g grids ms2 hr
  refine ⟨?_, ?_, by decide⟩
  · rw [hr]
    simp only [Except.map]
    congr 1
    rw [List.all_eq_true]
    intro m2 hm2
    exact decide_eq_true (h10 m2 hm2)
  · rfl
